import Mathlib

/-!
Verification of the linkedin-comment-generator backend services.

Texts are modelled as `List Char` (Python `str`, ASCII fragment). Python's
`re` word-boundary (`\b`), `re.IGNORECASE`, `str.lower`/`upper`/`strip` are
modelled on the ASCII ranges, which covers every pattern table and every
literal appearing in the sources (`app/services/advanced_humanizer.py`,
`app/services/paraphrase_service.py`, `app/services/comment_generator.py`).
Randomness (`random.random`, `random.choice`, `random.randint`) is modelled
by an explicit stream of natural-number draws: `random.random() < p` becomes
a draw compared against `100 * p`, faithful to which branch is taken.
Python exceptions (IndexError on `text[0]`, `parts[1]`) are modelled by
`Option`: `none` is an uncaught exception escaping the function.
-/

/-- Convert a string literal to a list of characters. -/
def strL (s : String) : List Char := s.toList

/-- ASCII lower-casing on char codes: Python `str.lower` / `re.IGNORECASE`
folding for the ASCII range. -/
def lcN (n : Nat) : Nat := if 65 ≤ n ∧ n ≤ 90 then n + 32 else n

/-- Case-insensitive character comparison (ASCII), modelling `re.IGNORECASE`. -/
def ciEqC (c d : Char) : Bool := lcN c.toNat == lcN d.toNat

/-- Python regex word character `\w` (ASCII fragment): `[A-Za-z0-9_]`. -/
def isWordC (c : Char) : Bool :=
  let n := c.toNat
  (48 ≤ n && n ≤ 57) || (65 ≤ n && n ≤ 90) || (97 ≤ n && n ≤ 122) || n == 95

/-- Lower-case a character (ASCII), Python `str.lower` on one char. -/
def lcC (c : Char) : Char :=
  if 65 ≤ c.toNat ∧ c.toNat ≤ 90 then Char.ofNat (c.toNat + 32) else c

/-- Upper-case a character (ASCII), Python `str.upper` on one char. -/
def ucC (c : Char) : Char :=
  if 97 ≤ c.toNat ∧ c.toNat ≤ 122 then Char.ofNat (c.toNat - 32) else c

/-- Is this an ASCII upper-case letter?  Python `c.isupper()` for one char. -/
def isUpperC (c : Char) : Bool := 65 ≤ c.toNat && c.toNat ≤ 90

/-- Is this an ASCII letter (a "cased" character in the ASCII fragment)? -/
def isAlphaC (c : Char) : Bool :=
  (65 ≤ c.toNat && c.toNat ≤ 90) || (97 ≤ c.toNat && c.toNat ≤ 122)

/-- Python whitespace for `str.strip()` / `str.split()`:
space, tab, newline, carriage return, vertical tab, form feed. -/
def pyIsSpace (c : Char) : Bool :=
  c.toNat == 32 || c.toNat == 9 || c.toNat == 10 || c.toNat == 13 ||
  c.toNat == 11 || c.toNat == 12

/-- Python `str.lstrip()` (no arguments: strip whitespace on the left). -/
def pyLStrip (t : List Char) : List Char := t.dropWhile pyIsSpace

/-- Python `str.rstrip()` (no arguments: strip whitespace on the right). -/
def pyRStrip (t : List Char) : List Char := (t.reverse.dropWhile pyIsSpace).reverse

/-- Python `str.strip()` (no arguments: strip whitespace on both sides). -/
def pyStrip (t : List Char) : List Char := pyRStrip (pyLStrip t)

/-- Python `str.rstrip(chars)`: strip any of the given characters on the right. -/
def pyRStripChars (cs : List Char) (t : List Char) : List Char :=
  (t.reverse.dropWhile (fun c => cs.contains c)).reverse

/-- Python `str.split()` (no arguments): maximal runs of non-whitespace.
The accumulator holds the current word reversed. -/
def splitWsGo (cur : List Char) : List Char → List (List Char)
  | [] => if cur.isEmpty then [] else [cur.reverse]
  | c :: rest =>
    if pyIsSpace c then
      if cur.isEmpty then splitWsGo [] rest else cur.reverse :: splitWsGo [] rest
    else splitWsGo (c :: cur) rest

/-- Python `str.split()` (no arguments). -/
def splitWs (t : List Char) : List (List Char) := splitWsGo [] t

/-- Python `len(text.split())`: the number of whitespace-separated words. -/
def wordCount (t : List Char) : Nat := (splitWs t).length

/-- Python `sep.join(pieces)`. -/
def joinSep (sep : List Char) : List (List Char) → List Char
  | [] => []
  | [x] => x
  | x :: y :: rest => x ++ sep ++ joinSep sep (y :: rest)

/-- Python `text.startswith(pre)` (also used for exact prefix tests). -/
def startsWithB : List Char → List Char → Bool
  | _, [] => true
  | [], _ :: _ => false
  | t :: ts, p :: ps => t == p && startsWithB ts ps

/-- Python `text.endswith(suf)`. -/
def endsWithB (t suf : List Char) : Bool := startsWithB t.reverse suf.reverse

/-- Leftmost exact occurrence of `s` in the remaining text, offset by `i`.
`s` is nonempty at every use site. -/
def findSubGo (s : List Char) : List Char → Nat → Option Nat
  | [], i => if s.isEmpty then some i else none
  | c :: rest, i =>
    if startsWithB (c :: rest) s then some i else findSubGo s rest (i + 1)

/-- Leftmost exact occurrence of `s` in `t` (Python `t.find(s)` / `s in t`). -/
def findSub (s t : List Char) : Option Nat := findSubGo s t 0

/-- Python `t.split(s, 1)` when the separator occurs: the two pieces.
`none` models the separator being absent (Python returns `[t]`). -/
def splitOnceSub (t s : List Char) : Option (List Char × List Char) :=
  (findSub s t).map fun m => (t.take m, t.drop (m + s.length))

/-- Python `t.split(s)` for a nonempty literal separator `s`, with fuel. -/
def splitSubGo (s : List Char) : Nat → List Char → List (List Char)
  | 0, t => [t]
  | fuel + 1, t =>
    match findSub s t with
    | none => [t]
    | some m => t.take m :: splitSubGo s fuel (t.drop (m + s.length))

/-- Python `t.split(s)` for a nonempty literal separator `s`. -/
def splitSub (t s : List Char) : List (List Char) := splitSubGo s t.length t

/-- Replace every occurrence of the nonempty literal `s` by `r`, scanning
left to right (Python `re.sub` on an escaped literal pattern), with fuel. -/
def replaceSubGo (s r : List Char) : Nat → List Char → List Char
  | 0, t => t
  | fuel + 1, t =>
    match findSub s t with
    | none => t
    | some m => t.take m ++ r ++ replaceSubGo s r fuel (t.drop (m + s.length))

/-- Replace every occurrence of the nonempty literal `s` by `r`. -/
def replaceSub (t s r : List Char) : List Char := replaceSubGo s r t.length t

/-- Python `str.capitalize()`: first char upper-cased, the rest lower-cased. -/
def pyCapitalize : List Char → List Char
  | [] => []
  | c :: rest => ucC c :: rest.map lcC

/-- Python `str.isupper()`: at least one cased character and every cased
character upper-case (ASCII model). -/
def pyIsUpperStr (t : List Char) : Bool :=
  t.any isAlphaC && t.all (fun c => !isAlphaC c || isUpperC c)

/-- Lower-case a whole text, Python `str.lower()` (ASCII model). -/
def lowerStr (t : List Char) : List Char := t.map lcC

/-!
## ParaphraseService  (`app/services/paraphrase_service.py`)

The HTTP layer is external, so one call's outcome is a value of `HttpResult`:
a timeout, a connection error, any other raised exception, or a response
with a status code and (when `.json()` parses; `none` models `.json()`
raising) a JSON body.  JSON values are modelled by `JVal`.
-/

/-- A parsed JSON value as far as `ParaphraseService.paraphrase` inspects it:
a string, an object, an array, or anything else. -/
inductive JVal where
  | str (s : List Char)
  | dict (entries : List (List Char × JVal))
  | list (items : List JVal)
  | other
deriving BEq

/-- Python `dict.get(key)`: first matching entry. -/
def jLookup : List (List Char × JVal) → List Char → Option JVal
  | [], _ => none
  | (k, v) :: rest, key => if k = key then some v else jLookup rest key

/-- The outcome of the single `requests.post` call in
`ParaphraseService.paraphrase`: raised `Timeout`, raised `ConnectionError`,
any other raised exception, or a response; `body = none` models
`response.json()` raising on an unparsable body. -/
inductive HttpResult where
  | timeout
  | connError
  | otherExc
  | resp (status : Nat) (body : Option JVal)

/-- The `humanized` value extracted from a 200 response body in
`ParaphraseService.paraphrase` (defaulting to the original text):
`[{"output": ...}]` list handling, then dict handling
`result.get('output', result.get('content', text))`. -/
def extractHumanized (j : JVal) (text : List Char) : JVal :=
  match j with
  | .list (first :: _) =>
    match first with
    | .dict es => (jLookup es (strL ("output"))).getD (.str text)
    | .str s => .str s
    | _ => .str text
  | .list [] => .str text
  | .dict es =>
    (jLookup es (strL ("output"))).getD ((jLookup es (strL ("content"))).getD (.str text))
  | _ => .str text

/-- The validation `if humanized and humanized.strip() and humanized != text`
in `ParaphraseService.paraphrase`.  A non-string `humanized` makes
`humanized.strip()` raise `AttributeError`, which the bare `except` catches,
returning the original text. -/
def validateHumanized (h : JVal) (text : List Char) : List Char :=
  match h with
  | .str s =>
    if s.isEmpty then text
    else if (pyStrip s).isEmpty then text
    else if s = text then text
    else pyStrip s
  | _ => text

/-- `ParaphraseService.paraphrase`: `enabled` is
`bool(HUMANIZER_BOT_AUTH_USER and HUMANIZER_BOT_AUTH_PASSWORD)`; the empty /
whitespace-only guard; then the dispatch on the HTTP outcome.  Every raising
path is caught by the function's own `except` clauses, so the model is total
and returns a plain text. -/
def paraphrase (enabled : Bool) (text : List Char) (r : HttpResult) : List Char :=
  if !enabled then text
  else if text.isEmpty || (pyStrip text).isEmpty then text
  else
    match r with
    | .timeout => text
    | .connError => text
    | .otherExc => text
    | .resp status body =>
      if status = 200 then
        match body with
        | none => text
        | some j => validateHumanized (extractHumanized j text) text
      else text

/-- `ParaphraseService.paraphrase_batch`: one `paraphrase` call per text, in
order, appending to `results`; `oracle i` is the HTTP outcome of the call for
the `i`-th text (`enumerate(texts, 1)` starts at 1). -/
def paraphraseBatch (enabled : Bool) (oracle : Nat → HttpResult) :
    List (List Char) → Nat → List (List Char)
  | [], _ => []
  | t :: rest, i => paraphrase enabled t (oracle i) :: paraphraseBatch enabled oracle rest (i + 1)

/-!
## CommentGenerator  (`app/services/comment_generator.py`)

`generate_comments` wraps the Anthropic API call, the `json.loads` parse and
the per-comment processing loop in one `try`, and its bare
`except Exception` returns `_fallback_comments()`.  The API call plus parse
is an external event, modelled by `LLMOutcome`; a parsed comment dict missing
the `"text"` key makes `comment["text"]` raise `KeyError` inside the loop,
which the same `except` catches.
-/

/-- One element of the parsed `comments` array: `comment["text"]` raises when
the key is missing (`text = none`), the other keys are read with `.get`
defaults. -/
structure RawComment where
  text : Option (List Char)
  confidence : Option ℚ
  approach : Option (List Char)

/-- The outcome of the Anthropic call plus `json.loads`: either some raised
exception, or a parsed list of comment dicts. -/
inductive LLMOutcome where
  | exc
  | ok (comments : List RawComment)

/-- One generated comment as returned by `CommentGenerator.generate_comments`. -/
structure GenComment where
  text : List Char
  variation : Nat
  confidence : ℚ
  approach : List Char
deriving DecidableEq

/-- `CommentGenerator._fallback_comments`: the fixed three-variation list. -/
def fallbackComments : List GenComment :=
  [⟨strL ("Great insights! Thanks for sharing your thoughts on this."), 1, 1/2,
    strL ("supportive")⟩,
   ⟨strL ("Interesting perspective. How do you see this evolving in the future?"), 2, 1/2,
    strL ("questioning")⟩,
   ⟨strL ("This resonates with my experience. Really valuable post."), 3, 1/2,
    strL ("insightful")⟩]

/-- The humanize-and-collect loop of `generate_comments`
(`enumerate(comments_data.get("comments", []), 1)`); `none` is a `KeyError`
from `comment["text"]` escaping to the enclosing `except`.  The humanizer
(`HumanizationEngine.humanize` with the user style applied) is a parameter. -/
def processComments (humanize : List Char → List Char) :
    List RawComment → Nat → Option (List GenComment)
  | [], _ => some []
  | c :: rest, i =>
    match c.text with
    | none => none
    | some tx =>
      match processComments humanize rest (i + 1) with
      | none => none
      | some l =>
        some (⟨humanize tx, i, c.confidence.getD (4/5), c.approach.getD (strL ("supportive"))⟩ :: l)

/-- `CommentGenerator.generate_comments`: on any exception anywhere in the
`try` block (API call, JSON parse, or the processing loop), the bare
`except Exception` returns `_fallback_comments()`. -/
def generateComments (humanize : List Char → List Char) (o : LLMOutcome) : List GenComment :=
  match o with
  | .exc => fallbackComments
  | .ok cs =>
    match processComments humanize cs 1 with
    | none => fallbackComments
    | some l => l

/-!  Supporting lemmas for the service claims. -/

/-- A comment with a missing `"text"` key makes the processing loop raise. -/
theorem processComments_none (humanize : List Char → List Char) :
    ∀ (cs : List RawComment) (i : Nat), (∃ c ∈ cs, c.text = none) →
    processComments humanize cs i = none := by
  intro cs
  induction cs with
  | nil => intro i h; rcases h with ⟨c, hc, _⟩; cases hc
  | cons c rest ih =>
    intro i h
    rcases h with ⟨c', hc', hnone⟩
    rcases List.mem_cons.mp hc' with h1 | h2
    · subst h1
      simp [processComments, hnone]
    · cases htext : c.text with
      | none => simp [processComments, htext]
      | some tx =>
        simp [processComments, htext, ih (i + 1) ⟨c', h2, hnone⟩]

/-- The batch loop is a position-wise map of `paraphrase`. -/
theorem paraphraseBatch_spec (enabled : Bool) (oracle : Nat → HttpResult) :
    ∀ (texts : List (List Char)) (i0 : Nat),
    (paraphraseBatch enabled oracle texts i0).length = texts.length ∧
    ∀ i, i < texts.length →
      (paraphraseBatch enabled oracle texts i0)[i]? =
        (texts[i]?).map (fun t => paraphrase enabled t (oracle (i0 + i))) := by
  intro texts
  induction texts with
  | nil => intro i0; exact ⟨rfl, fun i hi => absurd hi (Nat.not_lt_zero i)⟩
  | cons t rest ih =>
    intro i0
    constructor
    · simpa [paraphraseBatch] using (ih (i0 + 1)).1
    · intro i hi
      cases i with
      | zero => simp [paraphraseBatch]
      | succ j =>
        have hj : j < rest.length := Nat.lt_of_succ_lt_succ hi
        have := (ih (i0 + 1)).2 j hj
        simpa [paraphraseBatch, Nat.add_comm, Nat.add_assoc, Nat.add_left_comm] using this

/-- C3: `ParaphraseService.paraphrase` never raises (the model is a total
function because every raising path of the source is inside its own
`try`/`except`), returns the original text unchanged whenever the service is
disabled, the input is empty or whitespace-only, the request times out, the
connection fails, any other exception is raised, the status is not 200
(including 401 and 429), or a 200 body yields no usable output; and it
returns a different string only when a 200 response carries a non-empty
humanized string distinct from the input. -/
theorem paraphrase_failure_identity (enabled : Bool) (text : List Char) (r : HttpResult) :
    (enabled = false → paraphrase enabled text r = text) ∧
    (pyStrip text = [] → paraphrase enabled text r = text) ∧
    (r = .timeout → paraphrase enabled text r = text) ∧
    (r = .connError → paraphrase enabled text r = text) ∧
    (r = .otherExc → paraphrase enabled text r = text) ∧
    (∀ s b, r = .resp s b → s ≠ 200 → paraphrase enabled text r = text) ∧
    (r = .resp 200 none → paraphrase enabled text r = text) ∧
    (paraphrase enabled text r ≠ text →
      enabled = true ∧ ∃ j s, r = .resp 200 (some j) ∧
        extractHumanized j text = .str s ∧ s ≠ [] ∧ pyStrip s ≠ [] ∧ s ≠ text ∧
        paraphrase enabled text r = pyStrip s) := by
  refine ⟨?_, ?_, ?_, ?_, ?_, ?_, ?_, ?_⟩
  · intro h; simp [paraphrase, h]
  · intro h
    simp only [paraphrase, h]
    cases enabled <;> simp
  · intro h; subst h; simp [paraphrase]
  · intro h; subst h; simp [paraphrase]
  · intro h; subst h; simp [paraphrase]
  · intro s b h hs; subst h
    simp only [paraphrase]
    cases enabled <;> simp
    intro _
    simp [hs]
  · intro h; subst h
    simp only [paraphrase]
    cases enabled <;> simp
  · intro hne
    cases henabled : enabled with
    | false => exact absurd (by simp [paraphrase, henabled]) hne
    | true =>
      refine ⟨rfl, ?_⟩
      subst henabled
      by_cases hempty : text.isEmpty || (pyStrip text).isEmpty
      · exact absurd (by simp [paraphrase, hempty]) hne
      · cases r with
        | timeout => exact absurd (by simp [paraphrase, hempty]) hne
        | connError => exact absurd (by simp [paraphrase, hempty]) hne
        | otherExc => exact absurd (by simp [paraphrase, hempty]) hne
        | resp status body =>
          by_cases hstatus : status = 200
          · subst hstatus
            cases body with
            | none => exact absurd (by simp [paraphrase, hempty]) hne
            | some j =>
              refine ⟨j, ?_⟩
              have hval : paraphrase true text (.resp 200 (some j)) =
                  validateHumanized (extractHumanized j text) text := by
                simp [paraphrase, hempty]
              cases hext : extractHumanized j text with
              | str s =>
                by_cases h1 : s.isEmpty
                · exact absurd (by rw [hval, hext]; simp [validateHumanized, h1]) hne
                · by_cases h2 : (pyStrip s).isEmpty
                  · exact absurd (by rw [hval, hext]; simp [validateHumanized, h1, h2]) hne
                  · by_cases h3 : s = text
                    · exact absurd (by rw [hval, hext]; simp [validateHumanized, h1, h2, h3]) hne
                    · refine ⟨s, rfl, rfl, ?_, ?_, h3, ?_⟩
                      · simpa [List.isEmpty_iff] using h1
                      · simpa [List.isEmpty_iff] using h2
                      · rw [hval, hext]; simp [validateHumanized, h1, h2, h3]
              | dict es => exact absurd (by rw [hval, hext]; simp [validateHumanized]) hne
              | list l => exact absurd (by rw [hval, hext]; simp [validateHumanized]) hne
              | other => exact absurd (by rw [hval, hext]; simp [validateHumanized]) hne
          · exact absurd (by simp [paraphrase, hempty, hstatus]) hne

/-- Witness for C3: a concrete timeout returns the original text. -/
theorem paraphrase_failure_identity_witness :
    paraphrase true (strL ("Hello")) .timeout = strL ("Hello") :=
  (paraphrase_failure_identity true (strL ("Hello")) .timeout).2.2.1 rfl

/-- C7: whenever the API call, the JSON parse, or the processing loop raises
(`LLMOutcome.exc`, or a parsed comment whose `"text"` key is missing),
`CommentGenerator.generate_comments` swallows the exception and returns the
fixed three-element fallback list. -/
theorem generate_comments_fallback_on_exception (humanize : List Char → List Char)
    (o : LLMOutcome)
    (h : o = .exc ∨ ∃ cs, o = .ok cs ∧ ∃ c ∈ cs, c.text = none) :
    generateComments humanize o = fallbackComments := by
  rcases h with h | ⟨cs, rfl, hmiss⟩
  · subst h; rfl
  · simp [generateComments, processComments_none humanize cs 1 hmiss]

/-- Witness for C7: a raised exception yields the fallback list. -/
theorem generate_comments_fallback_on_exception_witness :
    generateComments id .exc = fallbackComments :=
  generate_comments_fallback_on_exception id .exc (Or.inl rfl)

/-- C10: `ParaphraseService.paraphrase_batch` returns a list of exactly the
input's length whose `i`-th element is `paraphrase` applied to the `i`-th
input text (with that call's own HTTP outcome), preserving order. -/
theorem paraphrase_batch_pointwise (enabled : Bool) (oracle : Nat → HttpResult)
    (texts : List (List Char)) :
    (paraphraseBatch enabled oracle texts 1).length = texts.length ∧
    ∀ i (h : i < texts.length),
      (paraphraseBatch enabled oracle texts 1)[i]? =
        some (paraphrase enabled (texts.get ⟨i, h⟩) (oracle (1 + i))) := by
  refine ⟨(paraphraseBatch_spec enabled oracle texts 1).1, ?_⟩
  intro i h
  rw [(paraphraseBatch_spec enabled oracle texts 1).2 i h, List.getElem?_eq_getElem h]
  simp [List.get_eq_getElem]

/-- Witness for C10 at a concrete two-element batch. -/
theorem paraphrase_batch_pointwise_witness :
    (paraphraseBatch true (fun _ => HttpResult.timeout) [strL ("hi"), strL ("yo")] 1)[1]? =
      some (paraphrase true
        ((([strL ("hi"), strL ("yo")] : List (List Char)).get ⟨1, Nat.one_lt_two⟩))
        HttpResult.timeout) := by
  have h := (paraphrase_batch_pointwise true (fun _ => HttpResult.timeout)
    [strL ("hi"), strL ("yo")]).2 1 Nat.one_lt_two
  simpa using h

/-!
## Word-boundary regex machinery

Every regex in `advanced_humanizer.py` is of the form `\b LITERAL \b` with
`re.IGNORECASE`, where the literal begins and ends with word characters.
`matchAtB q pw t j` decides whether such a pattern matches at offset `j`;
`pw` says whether the character just before `t` is a word character (`false`
at the start of a whole string).
-/

/-- Case-insensitive comparison of a pattern with the text it sits on
(pointwise, the pattern must fit). -/
def ciPref : List Char → List Char → Bool
  | [], _ => true
  | _ :: _, [] => false
  | p :: ps, c :: cs => ciEqC p c && ciPref ps cs

/-- `\b q \b` (IGNORECASE) matches at offset `j` of `t`, for a literal `q`
that starts and ends with word characters. -/
def matchAtB (q : List Char) (pw : Bool) (t : List Char) (j : Nat) : Bool :=
  (if j = 0 then !pw else
    match t[j - 1]? with
    | some c => !isWordC c
    | none => false) &&
  ciPref q (t.drop j) &&
  (match t[j + q.length]? with
   | some c => !isWordC c
   | none => true)

/-- Scan offsets `j, j+1, ...` for the leftmost match, with fuel. -/
def findFromB (q : List Char) (pw : Bool) (t : List Char) : Nat → Nat → Option Nat
  | _, 0 => none
  | j, fuel + 1 => if matchAtB q pw t j then some j else findFromB q pw t (j + 1) fuel

/-- Leftmost match of `\b q \b` (IGNORECASE) in `t` (`re.search`). -/
def findMatchB (q : List Char) (pw : Bool) (t : List Char) : Option Nat :=
  findFromB q pw t 0 (t.length + 1)

/-- `re.sub(pattern, repl, text, count=1)` for a `\b literal \b` IGNORECASE
pattern: replace the leftmost occurrence only. -/
def subFirstWordCI (q r t : List Char) : List Char :=
  match findMatchB q false t with
  | none => t
  | some m => t.take m ++ r ++ t.drop (m + q.length)

/-- `re.sub(pattern, repl, text)` for a `\b literal \b` IGNORECASE pattern:
replace all non-overlapping occurrences left to right.  Matching always
happens against the original text (as `re.sub` does), so after a splice the
scan resumes after the consumed segment, with the left-context wordness taken
from the last consumed character. -/
def subWordGo (q r : List Char) : Nat → Bool → List Char → List Char
  | 0, _, t => t
  | fuel + 1, pw, t =>
    match findMatchB q pw t with
    | none => t
    | some m =>
      let pw2 := match (t.take (m + q.length)).getLast? with
                 | some c => isWordC c
                 | none => pw
      t.take m ++ r ++ subWordGo q r fuel pw2 (t.drop (m + q.length))

/-- Global word-boundary IGNORECASE substitution. -/
def subWordAll (q r t : List Char) : List Char := subWordGo q r t.length false t

/-!
## AdvancedHumanizer tables  (`app/services/advanced_humanizer.py`)
-/

/-- `AdvancedHumanizer.FORMAL_TRANSITIONS` (13 entries, in list order). -/
def FORMAL_TRANSITIONS : List (List Char) :=
  [strL ("In conclusion,"), strL ("To summarize,"), strL ("Furthermore,"),
   strL ("Moreover,"), strL ("Additionally,"), strL ("Consequently,"),
   strL ("Nevertheless,"), strL ("Subsequently,"), strL ("Ultimately,"),
   strL ("Initially,"), strL ("In essence,"), strL ("Essentially,"),
   strL ("Fundamentally,")]

/-- `AdvancedHumanizer.CASUAL_CONNECTORS` (dict order = insertion order). -/
def CASUAL_CONNECTORS : List (List Char × List (List Char)) :=
  [(strL ("however"), [strL ("but"), strL ("though"), strL ("still")]),
   (strL ("therefore"), [strL ("so"), strL ("meaning"), strL ("which means")]),
   (strL ("additionally"), [strL ("also"), strL ("plus"), strL ("and")]),
   (strL ("furthermore"), [strL ("plus"), strL ("and"), strL ("also")]),
   (strL ("moreover"), [strL ("also"), strL ("plus"), strL ("and")]),
   (strL ("consequently"), [strL ("so"), strL ("meaning")]),
   (strL ("nevertheless"), [strL ("but"), strL ("still"), strL ("though")]),
   (strL ("thus"), [strL ("so")]),
   (strL ("hence"), [strL ("so")]),
   (strL ("regarding"), [strL ("about"), strL ("on")]),
   (strL ("concerning"), [strL ("about")]),
   (strL ("subsequently"), [strL ("then"), strL ("later")]),
   (strL ("initially"), [strL ("first"), strL ("at first")]),
   (strL ("ultimately"), [strL ("in the end"), strL ("finally")])]

/-- The contraction table of `_apply_contractions` (dict order). -/
def contractionTable : List (List Char × List Char) :=
  [(strL ("do not"), strL ("don't")),
   (strL ("does not"), strL ("doesn't")),
   (strL ("did not"), strL ("didn't")),
   (strL ("cannot"), strL ("can't")),
   (strL ("will not"), strL ("won't")),
   (strL ("would not"), strL ("wouldn't")),
   (strL ("could not"), strL ("couldn't")),
   (strL ("should not"), strL ("shouldn't")),
   (strL ("have not"), strL ("haven't")),
   (strL ("has not"), strL ("hasn't")),
   (strL ("had not"), strL ("hadn't")),
   (strL ("is not"), strL ("isn't")),
   (strL ("are not"), strL ("aren't")),
   (strL ("was not"), strL ("wasn't")),
   (strL ("were not"), strL ("weren't")),
   (strL ("I am"), strL ("I'm")),
   (strL ("you are"), strL ("you're")),
   (strL ("he is"), strL ("he's")),
   (strL ("she is"), strL ("she's")),
   (strL ("it is"), strL ("it's")),
   (strL ("we are"), strL ("we're")),
   (strL ("they are"), strL ("they're")),
   (strL ("I have"), strL ("I've")),
   (strL ("you have"), strL ("you've")),
   (strL ("we have"), strL ("we've")),
   (strL ("they have"), strL ("they've")),
   (strL ("I will"), strL ("I'll")),
   (strL ("you will"), strL ("you'll")),
   (strL ("he will"), strL ("he'll")),
   (strL ("she will"), strL ("she'll")),
   (strL ("we will"), strL ("we'll")),
   (strL ("they will"), strL ("they'll")),
   (strL ("that is"), strL ("that's")),
   (strL ("there is"), strL ("there's")),
   (strL ("what is"), strL ("what's")),
   (strL ("who is"), strL ("who's")),
   (strL ("where is"), strL ("where's")),
   (strL ("when is"), strL ("when's")),
   (strL ("why is"), strL ("why's")),
   (strL ("how is"), strL ("how's"))]

/-- `AdvancedHumanizer.NATURAL_STARTERS` (11 entries, empties included). -/
def NATURAL_STARTERS : List (List Char) :=
  [strL (""), strL ("Honestly,"), strL ("Real talk -"), strL ("Ngl,"),
   strL ("Tbh,"), strL ("Yeah,"), strL ("So,"), strL ("Look,"),
   strL (""), strL (""), strL ("")]

/-- `AdvancedHumanizer.NATURAL_FILLERS`. -/
def NATURAL_FILLERS : List (List Char) :=
  [strL ("kinda"), strL ("sorta"), strL ("pretty much"), strL ("basically"),
   strL ("honestly"), strL ("actually"), strL ("really"), strL ("just")]

/-!
## Randomness

A random stream is a list of natural draws.  `random.random() < p` consumes
one draw `d` and tests `d % 100 < 100 p` (every threshold in the source is a
multiple of 0.05); `random.choice` consumes one draw and indexes the list
modulo its length (all call sites guard non-emptiness); `random.randint(a,b)`
consumes one draw into the inclusive range. -/

/-- Pop one draw (0 when the stream is exhausted). -/
def drawNat : List Nat → Nat × List Nat
  | [] => (0, [])
  | d :: rest => (d, rest)

/-- `random.random() < threshold/100`. -/
def randLt (threshold : Nat) (g : List Nat) : Bool × List Nat :=
  let p := drawNat g
  (decide (p.1 % 100 < threshold), p.2)

/-- `random.randint(a, b)` (inclusive; `a ≤ b` at every call site). -/
def randInt (a b : Nat) (g : List Nat) : Nat × List Nat :=
  let p := drawNat g
  (a + p.1 % (b + 1 - a), p.2)

/-- `random.choice(l)` for a nonempty `l` (all call sites guard this). -/
def pyChoice (l : List (List Char)) (g : List Nat) : List Char × List Nat :=
  let p := drawNat g
  (l.getD (p.1 % l.length) [], p.2)

/-!
## The six pipeline steps of `AdvancedHumanizer.humanize_comment`
-/

/-- Step 1a (`_remove_ai_formality`, transition loop): each entry of
`FORMAL_TRANSITIONS` is tested once, in list order, against the current text
and stripped off (with `str.strip`) when it is a prefix. -/
def removeTransitions : List (List Char) → List Char → List Char
  | [], t => t
  | e :: es, t =>
    if startsWithB t e then removeTransitions es (pyStrip (t.drop e.length))
    else removeTransitions es t

/-- Step 1b (`_remove_ai_formality`, connector loop): for each
`CASUAL_CONNECTORS` entry in dict order, when `\b key \b` occurs
(IGNORECASE) draw one casual replacement and substitute the first
occurrence only. -/
def replaceConnectors :
    List (List Char × List (List Char)) → List Char → List Nat → List Char × List Nat
  | [], t, g => (t, g)
  | (key, opts) :: rest, t, g =>
    match findMatchB key false t with
    | none => replaceConnectors rest t g
    | some _ =>
      let p := pyChoice opts g
      replaceConnectors rest (subFirstWordCI key p.1 t) p.2

/-- Step 1: `AdvancedHumanizer._remove_ai_formality`. -/
def removeAiFormality (t : List Char) (g : List Nat) : List Char × List Nat :=
  replaceConnectors CASUAL_CONNECTORS (removeTransitions FORMAL_TRANSITIONS t) g

/-- Step 2: `AdvancedHumanizer._apply_contractions`: the 38 global
IGNORECASE word-boundary substitutions, in dict order. -/
def applyContractions (t : List Char) : List Char :=
  contractionTable.foldl (fun acc pr => subWordAll pr.1 pr.2 acc) t

/-- A sentence delimiter character of `[.!?]`. -/
def isDelimC (c : Char) : Bool := c == '.' || c == '!' || c == '?'

/-- `re.split(r'([.!?]+)', text)`: alternating non-delimiter chunks and the
captured maximal delimiter runs (first and last element are chunks, possibly
empty); with fuel. -/
def splitDelimsGo : Nat → List Char → List (List Char)
  | 0, t => [t]
  | fuel + 1, t =>
    let chunk := t.takeWhile (fun c => !isDelimC c)
    let rest := t.dropWhile (fun c => !isDelimC c)
    match rest with
    | [] => [chunk]
    | _ :: _ =>
      chunk :: rest.takeWhile isDelimC :: splitDelimsGo fuel (rest.dropWhile isDelimC)

/-- `re.split(r'([.!?]+)', text)`. -/
def splitDelims (t : List Char) : List (List Char) := splitDelimsGo t.length t

/-- `[''.join(pieces[i:i+2]) for i in range(0, len(pieces)-1, 2)]`: pair each
chunk with its delimiter run; a trailing chunk with no following delimiter
run is dropped. -/
def pairUp : List (List Char) → List (List Char)
  | a :: b :: rest => (a ++ b) :: pairUp rest
  | _ => []

/-- The sentence list both `_vary_sentence_structure` and
`_adjust_to_user_length` compute. -/
def sentencesOf (t : List Char) : List (List Char) := pairUp (splitDelims t)

/-- The long-sentence loop of `_vary_sentence_structure`: scan sentences left
to right; a sentence of more than 15 words draws, and on success is split at
the literal `' but '` and the loop breaks.  The membership test lower-cases
the sentence but the split does not, so a sentence containing only `' But '`
sends `parts[1]` out of bounds (`none`). -/
def breakLongLoop :
    List (List Char) → List (List Char) → List Nat → Option (List (List Char) × List Nat)
  | done, [], g => some (done, g)
  | done, s :: rest, g =>
    if wordCount s > 15 then
      let p := randLt 25 g
      if p.1 then
        if (findSub (strL (" but ")) (lowerStr s)).isSome then
          match splitOnceSub s (strL (" but ")) with
          | some ab =>
            some (done ++ [pyRStrip ab.1 ++ strL (".")] ++ [strL ("But ") ++ pyLStrip ab.2] ++ rest, p.2)
          | none => none
        else breakLongLoop (done ++ [s]) rest p.2
      else breakLongLoop (done ++ [s]) rest p.2
    else breakLongLoop (done ++ [s]) rest g

/-- Step 3: `AdvancedHumanizer._vary_sentence_structure`. -/
def varySentences (t : List Char) (g : List Nat) : Option (List Char × List Nat) :=
  let sentences := sentencesOf t
  if sentences.length > 1 then
    let p := randLt 30 g
    let q :=
      if p.1 && decide (sentences.length ≥ 2) then
        let pi := randInt 0 (sentences.length - 2) p.2
        let combined := pyRStripChars (strL (".!?")) (sentences.getD pi.1 []) ++
          strL (". ") ++ sentences.getD (pi.1 + 1) []
        (sentences.take pi.1 ++ [combined] ++ sentences.drop (pi.1 + 2), pi.2)
      else (sentences, p.2)
    match breakLongLoop [] q.1 q.2 with
    | none => none
    | some res => some (joinSep (strL (" ")) res.1, res.2)
  else some (joinSep (strL (" ")) sentences, g)

/-- The user-style record (`user_style` dict) as far as the humanizer reads
it: `typical_comment_openings` (default `[]`), `tone` (default `None`),
`avg_comment_length` (default 40 at its use site). -/
structure UserStyle where
  typical_comment_openings : List (List Char) := []
  tone : Option (List Char) := none
  avg_comment_length : Option Nat := none

/-- `f"{starter} {text[0].lower()}{text[1:]}"`; `text[0]` raises IndexError
on an empty text (`none`). -/
def prefixStarter (starter t : List Char) : Option (List Char) :=
  match t with
  | [] => none
  | c :: rest => some (starter ++ ' ' :: lcC c :: rest)

/-- The natural-starter branch of `_add_conversational_markers`: draw from
`NATURAL_STARTERS`, and prefix when the starter is nonempty. -/
def naturalStarterStep (t : List Char) (g : List Nat) : Option (List Char × List Nat) :=
  let p := pyChoice NATURAL_STARTERS g
  if !p.1.isEmpty then
    match prefixStarter p.1 t with
    | none => none
    | some t2 => some (t2, p.2)
  else some (t, p.2)

/-- The filler insertion of `_add_conversational_markers`: one draw, then on
success insert a filler word after position `randint(3, min(5, len-1))`. -/
def fillerStep (t : List Char) (g : List Nat) : List Char × List Nat :=
  let p := randLt 20 g
  if p.1 && decide (wordCount t > 8) then
    let pf := pyChoice NATURAL_FILLERS p.2
    let words := splitWs t
    let pp := randInt 3 (min 5 (words.length - 1)) pf.2
    (joinSep (strL (" ")) (words.take pp.1 ++ [pf.1] ++ words.drop pp.1), pp.2)
  else (t, p.2)

/-- Step 4: `AdvancedHumanizer._add_conversational_markers`. -/
def addConvMarkers (t : List Char) (st : UserStyle) (g : List Nat) :
    Option (List Char × List Nat) :=
  let p := randLt 30 g
  let afterStarter : Option (List Char × List Nat) :=
    if p.1 then
      if !st.typical_comment_openings.isEmpty then
        let p2 := randLt 60 p.2
        if p2.1 then
          let ps := pyChoice st.typical_comment_openings p2.2
          let starter := pyCapitalize ps.1
          if !startsWithB t starter then
            match prefixStarter starter t with
            | none => none
            | some t2 => some (t2, ps.2)
          else some (t, ps.2)
        else naturalStarterStep t p2.2
      else naturalStarterStep t p.2
    else some (t, p.2)
  match afterStarter with
  | none => none
  | some tg => some (fillerStep tg.1 tg.2)

/-- The trailing-period removal of `_add_natural_imperfections` (one draw). -/
def dropPeriodStep (t : List Char) (g : List Nat) : List Char × List Nat :=
  let p := randLt 40 g
  if p.1 && endsWithB t (strL (".")) then (t.dropLast, p.2) else (t, p.2)

/-- The double-space insertion of `_add_natural_imperfections` (one draw,
then on success normalise `'.  '` to `'. '`, split on `'. '` and re-join
with one double space). -/
def doubleSpaceStep (t : List Char) (g : List Nat) : List Char × List Nat :=
  let p := randLt 30 g
  if p.1 then
    let t1 := replaceSub t (strL (".  ")) (strL (". "))
    let ss := splitSub t1 (strL (". "))
    if ss.length > 1 then
      let pk := randInt 0 (ss.length - 2) p.2
      (joinSep (strL (". ")) (ss.take (pk.1 + 1)) ++ strL (".  ") ++
        joinSep (strL (". ")) (ss.drop (pk.1 + 1)), pk.2)
    else (t1, p.2)
  else (t, p.2)

/-- The lower-casing of `_add_natural_imperfections` for a casual tone:
`text[0]` raises on the empty text; the acronym check reads
`text.split()[0]`. -/
def lowercaseStep (t : List Char) (st : UserStyle) (g : List Nat) :
    Option (List Char × List Nat) :=
  let p := randLt 25 g
  if p.1 && (st.tone == some (strL ("casual"))) then
    match t with
    | [] => none
    | c :: rest =>
      if isUpperC c then
        match splitWs (c :: rest) with
        | [] => none
        | w :: _ =>
          if !pyIsUpperStr w then some (lcC c :: rest, p.2) else some (c :: rest, p.2)
      else some (c :: rest, p.2)
  else some (t, p.2)

/-- The trailing-ellipsis step of `_add_natural_imperfections` (one draw). -/
def ellipsisStep (t : List Char) (g : List Nat) : List Char × List Nat :=
  let p := randLt 15 g
  if p.1 && !endsWithB t (strL ("?")) then
    if endsWithB t (strL (".")) then (t.dropLast ++ strL ("..."), p.2)
    else (t ++ strL ("..."), p.2)
  else (t, p.2)

/-- Step 5: `AdvancedHumanizer._add_natural_imperfections`. -/
def addImperfections (t : List Char) (st : UserStyle) (g : List Nat) :
    Option (List Char × List Nat) :=
  let p1 := dropPeriodStep t g
  let p2 := doubleSpaceStep p1.1 p1.2
  match lowercaseStep p2.1 st p2.2 with
  | none => none
  | some p3 => some (ellipsisStep p3.1 p3.2)

/-- `int(target_length * 1.3)`: over the realistic range the float product
floors to the exact rational floor, so the model uses `13 * L / 10`. -/
def maxLenOf (target : Nat) : Nat := 13 * target / 10

/-- `int(target_length * 0.7)` (only ever used as a lower gate that cannot
fire together with the upper one). -/
def minLenOf (target : Nat) : Nat := 7 * target / 10

/-- The greedy keep-first-sentences loop of `_adjust_to_user_length`: keep
sentences while the running word count stays within `maxL`, stop at the
first one that does not fit. -/
def trimKeep (maxL : Nat) : List (List Char) → Nat → List (List Char)
  | [], _ => []
  | s :: rest, acc =>
    if acc + wordCount s ≤ maxL then s :: trimKeep maxL rest (acc + wordCount s)
    else []

/-- Step 6: `AdvancedHumanizer._adjust_to_user_length`. -/
def adjustToUserLength (t : List Char) (st : UserStyle) : List Char :=
  let target := st.avg_comment_length.getD 40
  let cur := wordCount t
  if cur < minLenOf target then t
  else if cur > maxLenOf target then
    let kept := trimKeep (maxLenOf target) (sentencesOf t) 0
    if !kept.isEmpty then joinSep (strL (" ")) kept else t
  else t

/-- `AdvancedHumanizer.humanize_comment` (= `apply_advanced_humanization`):
the six steps in order, threading the random stream, then `str.strip`.
`none` is an uncaught IndexError escaping the call. -/
def humanizeComment (comment : List Char) (st : UserStyle) (g : List Nat) :
    Option (List Char) :=
  let p1 := removeAiFormality comment g
  let t2 := applyContractions p1.1
  match varySentences t2 p1.2 with
  | none => none
  | some p3 =>
    match addConvMarkers p3.1 st p3.2 with
    | none => none
    | some p4 =>
      match addImperfections p4.1 st p4.2 with
      | none => none
      | some p5 => some (pyStrip (adjustToUserLength p5.1 st))

/-!  Word-count lemmas for the trimming claims. -/

/-- `str.split()` distributes over an inserted space. -/
theorem splitWsGo_space (b : List Char) :
    ∀ (a cur : List Char), splitWsGo cur (a ++ ' ' :: b) = splitWsGo cur a ++ splitWsGo [] b := by
  have hsp : pyIsSpace ' ' = true := by decide
  intro a
  induction a with
  | nil =>
    intro cur
    by_cases h : cur.isEmpty <;> simp [splitWsGo, hsp, h]
  | cons c a' ih =>
    intro cur
    by_cases hc : pyIsSpace c <;> by_cases h : cur.isEmpty <;>
      simp [splitWsGo, hc, h, ih]

/-- Word counts add across a separating space. -/
theorem wordCount_append_space (x y : List Char) :
    wordCount (x ++ ' ' :: y) = wordCount x + wordCount y := by
  unfold wordCount splitWs
  rw [splitWsGo_space y x []]
  simp

/-- The word count of a space-join is the sum of the word counts. -/
theorem wordCount_joinSep : ∀ (l : List (List Char)),
    wordCount (joinSep (strL (" ")) l) = (l.map wordCount).sum := by
  intro l
  induction l with
  | nil => rfl
  | cons x rest ih =>
    cases rest with
    | nil => simp [joinSep]
    | cons y r2 =>
      have hj : joinSep (strL (" ")) (x :: y :: r2) =
          x ++ ' ' :: joinSep (strL (" ")) (y :: r2) := by
        simp [joinSep, strL]
      rw [hj, wordCount_append_space, ih]
      simp

/-- The greedy keep loop never exceeds the cap. -/
theorem trimKeep_sum (maxL : Nat) :
    ∀ (ss : List (List Char)) (acc : Nat), acc ≤ maxL →
    acc + (((trimKeep maxL ss acc).map wordCount).sum) ≤ maxL := by
  intro ss
  induction ss with
  | nil => intro acc h; simpa [trimKeep] using h
  | cons s rest ih =>
    intro acc h
    by_cases hfit : acc + wordCount s ≤ maxL
    · have h2 := ih (acc + wordCount s) hfit
      simp only [trimKeep, hfit, if_true, List.map_cons, List.sum_cons]
      omega
    · simp only [trimKeep, hfit, if_false, List.map_nil, List.sum_nil]
      omega

/-- C1 counterexample: with `avg_comment_length = 1` the word-count cap is
`int(1.3 * 1) = 1`; the input `"a b."` has 2 words, exceeds the cap, yet
`_adjust_to_user_length` returns it unchanged (its single sentence already
exceeds the cap, so the greedy keep loop keeps nothing and the source then
leaves the text as it was). -/
theorem adjust_length_counterexample :
    wordCount (strL ("a b.")) > maxLenOf 1 ∧
    adjustToUserLength (strL ("a b.")) ⟨[], none, some 1⟩ = strL ("a b.") ∧
    wordCount (adjustToUserLength (strL ("a b.")) ⟨[], none, some 1⟩) > maxLenOf 1 := by
  decide

/-- C1 amended: `_adjust_to_user_length` returns the input unchanged whenever
its word count is within `int(1.3 * L)`; when the word count exceeds the cap
and the first sentence fits within the cap, the result is a sentence-boundary
truncation of word count at most the cap; but when every split-off first
sentence already exceeds the cap (or there is no sentence), the input comes
back unchanged. -/
theorem adjust_length_spec (t : List Char) (st : UserStyle) :
    (wordCount t ≤ maxLenOf (st.avg_comment_length.getD 40) →
      adjustToUserLength t st = t) ∧
    (∀ s1 rest, sentencesOf t = s1 :: rest →
      wordCount s1 ≤ maxLenOf (st.avg_comment_length.getD 40) →
      wordCount t > maxLenOf (st.avg_comment_length.getD 40) →
      wordCount (adjustToUserLength t st) ≤ maxLenOf (st.avg_comment_length.getD 40)) ∧
    ((∀ s1 rest, sentencesOf t = s1 :: rest →
        wordCount s1 > maxLenOf (st.avg_comment_length.getD 40)) →
      adjustToUserLength t st = t) := by
  refine ⟨?_, ?_, ?_⟩
  · intro hle
    unfold adjustToUserLength
    by_cases hmin : wordCount t < minLenOf (st.avg_comment_length.getD 40)
    · simp [hmin]
    · have : ¬ wordCount t > maxLenOf (st.avg_comment_length.getD 40) := by omega
      simp [hmin, this]
  · intro s1 rest hss hfit hgt
    unfold adjustToUserLength
    have hminmax : minLenOf (st.avg_comment_length.getD 40) ≤
        maxLenOf (st.avg_comment_length.getD 40) :=
      Nat.div_le_div_right (Nat.mul_le_mul_right _ (by norm_num))
    have hmin : ¬ wordCount t < minLenOf (st.avg_comment_length.getD 40) := by omega
    have hkept : trimKeep (maxLenOf (st.avg_comment_length.getD 40)) (sentencesOf t) 0 =
        s1 :: trimKeep (maxLenOf (st.avg_comment_length.getD 40)) rest (0 + wordCount s1) := by
      rw [hss]
      simp [trimKeep, hfit]
    have hsum := trimKeep_sum (maxLenOf (st.avg_comment_length.getD 40)) (sentencesOf t) 0
      (Nat.zero_le _)
    simp only [hmin, if_false, hgt, if_true]
    rw [hkept]
    simp only [List.isEmpty_cons, Bool.not_false, if_true]
    rw [wordCount_joinSep]
    rw [hkept] at hsum
    simpa using hsum
  · intro hbig
    unfold adjustToUserLength
    by_cases hmin : wordCount t < minLenOf (st.avg_comment_length.getD 40)
    · simp [hmin]
    · by_cases hgt : wordCount t > maxLenOf (st.avg_comment_length.getD 40)
      · cases hss : sentencesOf t with
        | nil => simp [hmin, hgt, hss, trimKeep]
        | cons s1 rest =>
          have hns : ¬ (wordCount s1 ≤ maxLenOf (st.avg_comment_length.getD 40)) := by
            have := hbig s1 rest hss
            omega
          simp [hmin, hgt, hss, trimKeep, hns]
      · simp [hmin, hgt]

/-- Witness for C1 amended: a 6-word input with cap 3 whose first sentence
has 2 words is trimmed to at most 3 words. -/
theorem adjust_length_spec_witness :
    wordCount (adjustToUserLength (strL ("Hi there. Bye bye bye bye.")) ⟨[], none, some 3⟩) ≤
      maxLenOf 3 :=
  (adjust_length_spec (strL ("Hi there. Bye bye bye bye.")) ⟨[], none, some 3⟩).2.1
    (strL ("Hi there.")) [strL (" Bye bye bye bye.")] (by decide) (by decide) (by decide)

/-- C2 counterexample: `humanize_comment` draws randomness; on the same
comment and user style, two runs whose draws differ return different
strings (one run adds no starter, the other prefixes `"Honestly,"`). -/
theorem humanize_comment_not_deterministic :
    humanizeComment (strL ("Hello.")) ⟨[], none, none⟩ [99, 99, 99, 99, 99, 99] =
      some (strL ("Hello.")) ∧
    humanizeComment (strL ("Hello.")) ⟨[], none, none⟩ [0, 1, 99, 99, 99, 99, 99] =
      some (strL ("Honestly, hello.")) ∧
    strL ("Hello.") ≠ strL ("Honestly, hello.") := by
  decide

/-- C2 amended: the pipeline is deterministic only relative to the random
draws: two invocations on the same comment, the same user style and the same
random stream return the same output. -/
theorem humanize_comment_deterministic_given_draws (c : List Char) (st : UserStyle)
    (g₁ g₂ : List Nat) (h : g₁ = g₂) :
    humanizeComment c st g₁ = humanizeComment c st g₂ := by rw [h]

/-- Witness for C2 amended at a concrete input. -/
theorem humanize_comment_deterministic_given_draws_witness :
    humanizeComment (strL ("Hello.")) ⟨[], none, none⟩ [99, 99, 99, 99, 99, 99] =
      humanizeComment (strL ("Hello.")) ⟨[], none, none⟩ [99, 99, 99, 99, 99, 99] :=
  humanize_comment_deterministic_given_draws (strL ("Hello.")) ⟨[], none, none⟩ _ _ rfl

/-- C6 counterexample: `_apply_contractions` never expands a contraction:
the input `"don't"` is returned unchanged (the claimed rewrite to
`"do not"` does not appear; the contraction is still there). -/
theorem apply_contractions_does_not_expand :
    applyContractions (strL ("don't")) = strL ("don't") ∧
    findSub (strL ("do not")) (applyContractions (strL ("don't"))) = none ∧
    findSub (strL ("don't")) (applyContractions (strL ("don't"))) = some 0 := by
  decide

set_option maxHeartbeats 4000000 in
/-- C6 amended: the substitution table works in the contraction direction:
every expanded form of the table is rewritten to its contraction (here each
table entry, run through the full `_apply_contractions` pass, yields exactly
its contraction). -/
theorem apply_contractions_contracts :
    ∀ pr ∈ contractionTable, applyContractions pr.1 = pr.2 := by
  decide

/-- Witness for C6 amended: `"do not"` becomes `"don't"`. -/
theorem apply_contractions_contracts_witness :
    applyContractions (strL ("do not")) = strL ("don't") :=
  apply_contractions_contracts (strL ("do not"), strL ("don't")) (by decide)

/-!  Safety lemmas for the humanizer pipeline (claim C8). -/

/-- A space-join of `n` pieces has at least `n - 1` characters. -/
theorem joinSep_length_ge : ∀ (l : List (List Char)),
    l.length - 1 ≤ (joinSep (strL (" ")) l).length := by
  intro l
  induction l with
  | nil => simp [joinSep]
  | cons x rest ih =>
    cases rest with
    | nil => simp [joinSep]
    | cons y r2 =>
      simp only [joinSep, List.length_append, List.length_cons] at ih ⊢
      simp only [strL] at ih ⊢
      simp at ih ⊢
      omega

/-- The filler insertion either returns its input or a text of at least 9
words' worth of pieces (so at least 9 characters of joined material). -/
theorem fillerStep_out (t : List Char) (g : List Nat) :
    (fillerStep t g).1 = t ∨ 9 ≤ (fillerStep t g).1.length := by
  unfold fillerStep
  by_cases hcond : ((randLt 20 g).1 && decide (wordCount t > 8)) = true
  · right
    simp only [hcond, if_true]
    have hn : 9 ≤ (splitWs t).length := by
      have hcopy := hcond
      simp only [Bool.and_eq_true, decide_eq_true_eq] at hcopy
      simpa [wordCount] using hcopy.2
    have h1 : ((splitWs t).take (randInt 3 (min 5 ((splitWs t).length - 1))
          (pyChoice NATURAL_FILLERS (randLt 20 g).2).2).1 ++
        [(pyChoice NATURAL_FILLERS (randLt 20 g).2).1] ++
        (splitWs t).drop (randInt 3 (min 5 ((splitWs t).length - 1))
          (pyChoice NATURAL_FILLERS (randLt 20 g).2).2).1).length =
        (splitWs t).length + 1 := by
      simp only [List.length_append, List.length_take, List.length_cons,
        List.length_nil, List.length_drop]
      omega
    have h2 := joinSep_length_ge ((splitWs t).take (randInt 3 (min 5 ((splitWs t).length - 1))
          (pyChoice NATURAL_FILLERS (randLt 20 g).2).2).1 ++
        [(pyChoice NATURAL_FILLERS (randLt 20 g).2).1] ++
        (splitWs t).drop (randInt 3 (min 5 ((splitWs t).length - 1))
          (pyChoice NATURAL_FILLERS (randLt 20 g).2).2).1)
    omega
  · left
    simp only [Bool.not_eq_true] at hcond
    simp [hcond]

/-- The natural-starter branch succeeds on a nonempty text and either leaves
it unchanged or prefixes at least two characters. -/
theorem naturalStarterStep_some (c : Char) (rest : List Char) (g : List Nat) :
    ∃ t1 g1, naturalStarterStep (c :: rest) g = some (t1, g1) ∧
      (t1 = c :: rest ∨ 2 ≤ t1.length) := by
  unfold naturalStarterStep
  by_cases hs : ((pyChoice NATURAL_STARTERS g).1).isEmpty
  · exact ⟨c :: rest, (pyChoice NATURAL_STARTERS g).2, by simp [hs], Or.inl rfl⟩
  · refine ⟨(pyChoice NATURAL_STARTERS g).1 ++ ' ' :: lcC c :: rest,
      (pyChoice NATURAL_STARTERS g).2, ?_, Or.inr ?_⟩
    · simp [hs, prefixStarter]
    · simp only [List.length_append, List.length_cons]
      omega

/-- Combining a pre-filler stage output with the filler step keeps the
"unchanged or at least two characters" disjunction. -/
theorem conv_finish (t t1 : List Char) (g1 : List Nat)
    (hprop : t1 = t ∨ 2 ≤ t1.length) :
    (fillerStep t1 g1).1 = t ∨ 2 ≤ (fillerStep t1 g1).1.length := by
  rcases fillerStep_out t1 g1 with he | hlen
  · rw [he]; exact hprop
  · right; omega

/-- Packaging the last two lemmas for one pipeline branch. -/
theorem conv_pack (t t1 : List Char) (g1 : List Nat) (hprop : t1 = t ∨ 2 ≤ t1.length) :
    ∃ t2 g2, some (fillerStep t1 g1) = some (t2, g2) ∧ (t2 = t ∨ 2 ≤ t2.length) :=
  ⟨(fillerStep t1 g1).1, (fillerStep t1 g1).2, by simp, conv_finish t t1 g1 hprop⟩

/-- Step 4 never raises on a nonempty text, and its output is either the
input itself or at least two characters long. -/
theorem addConvMarkers_total (t : List Char) (st : UserStyle) (g : List Nat) (h : t ≠ []) :
    ∃ t2 g2, addConvMarkers t st g = some (t2, g2) ∧ (t2 = t ∨ 2 ≤ t2.length) := by
  obtain ⟨c, rest, rfl⟩ := List.exists_cons_of_ne_nil h
  simp only [addConvMarkers]
  by_cases hp : (randLt 30 g).1
  · simp only [hp, if_true]
    by_cases ho : st.typical_comment_openings.isEmpty
    · simp only [ho, Bool.not_true, Bool.false_eq_true, if_false]
      obtain ⟨t1, g1, hn, hpr⟩ := naturalStarterStep_some c rest (randLt 30 g).2
      rw [hn]
      exact conv_pack (c :: rest) t1 g1 hpr
    · simp only [ho, Bool.not_false, if_true]
      by_cases hp2 : (randLt 60 (randLt 30 g).2).1
      · simp only [hp2, if_true]
        by_cases hsw : startsWithB (c :: rest)
            (pyCapitalize (pyChoice st.typical_comment_openings (randLt 60 (randLt 30 g).2).2).1)
        · simp only [hsw, Bool.not_true, Bool.false_eq_true, if_false]
          exact conv_pack (c :: rest) (c :: rest)
            (pyChoice st.typical_comment_openings (randLt 60 (randLt 30 g).2).2).2
            (Or.inl rfl)
        · simp only [hsw, Bool.not_false, if_true, prefixStarter]
          refine conv_pack (c :: rest)
            (pyCapitalize (pyChoice st.typical_comment_openings
              (randLt 60 (randLt 30 g).2).2).1 ++ ' ' :: lcC c :: rest)
            (pyChoice st.typical_comment_openings (randLt 60 (randLt 30 g).2).2).2
            (Or.inr ?_)
          simp only [List.length_append, List.length_cons]
          omega
      · simp only [hp2, if_false]
        obtain ⟨t1, g1, hn, hpr⟩ := naturalStarterStep_some c rest (randLt 60 (randLt 30 g).2).2
        rw [hn]
        exact conv_pack (c :: rest) t1 g1 hpr
  · simp only [hp, if_false]
    exact conv_pack (c :: rest) (c :: rest) (randLt 30 g).2 (Or.inl rfl)

/-- A text that ends with a period and is neither empty nor `"."` has at
least two characters. -/
theorem endsWith_period_len (t : List Char) (h1 : t ≠ []) (h2 : t ≠ strL ("."))
    (he : endsWithB t (strL (".")) = true) : 2 ≤ t.length := by
  cases t with
  | nil => exact absurd rfl h1
  | cons c rest =>
    cases rest with
    | nil =>
      exfalso
      apply h2
      simp only [endsWithB, startsWithB, strL] at he
      simp at he
      simp [he, strL]
    | cons d r2 => simp

/-- The trailing-period removal keeps the text nonempty (given it is neither
empty nor the bare `"."`). -/
theorem dropPeriodStep_ne (t : List Char) (g : List Nat) (h1 : t ≠ []) (h2 : t ≠ strL (".")) :
    (dropPeriodStep t g).1 ≠ [] := by
  unfold dropPeriodStep
  by_cases hc : ((randLt 40 g).1 && endsWithB t (strL ("."))) = true
  · simp only [hc, if_true]
    have hc2 := hc
    simp only [Bool.and_eq_true] at hc2
    have he := hc2.2
    have hlen := endsWith_period_len t h1 h2 he
    intro hnil
    have := congrArg List.length hnil
    simp [List.length_dropLast] at this
    omega
  · simp only [Bool.not_eq_true] at hc
    simp only [hc, Bool.false_eq_true, if_false]
    exact h1

/-- Literal substitution with a nonempty replacement keeps a nonempty text
nonempty. -/
theorem replaceSubGo_ne (s r : List Char) (hr : r ≠ []) :
    ∀ (fuel : Nat) (t : List Char), t ≠ [] → replaceSubGo s r fuel t ≠ [] := by
  intro fuel
  cases fuel with
  | zero => intro t ht; simpa [replaceSubGo] using ht
  | succ f =>
    intro t ht
    unfold replaceSubGo
    cases hf : findSub s t with
    | none => simpa using ht
    | some m =>
      simp only []
      intro hnil
      rw [List.append_assoc] at hnil
      have := List.append_eq_nil.mp hnil
      exact hr (List.append_eq_nil.mp this.2).1

/-- The double-space step keeps the text nonempty. -/
theorem doubleSpaceStep_ne (t : List Char) (g : List Nat) (h : t ≠ []) :
    (doubleSpaceStep t g).1 ≠ [] := by
  unfold doubleSpaceStep
  by_cases hc : (randLt 30 g).1
  · simp only [hc, if_true]
    have ht1 : replaceSub t (strL (".  ")) (strL (". ")) ≠ [] :=
      replaceSubGo_ne _ _ (by decide) _ t h
    by_cases hlen :
        (splitSub (replaceSub t (strL (".  ")) (strL (". "))) (strL (". "))).length > 1
    · simp only [hlen, if_true]
      intro hnil
      rw [List.append_assoc] at hnil
      have := List.append_eq_nil.mp hnil
      have h2 := (List.append_eq_nil.mp this.2).1
      simp [strL] at h2
    · simp only [hlen, if_false]
      exact ht1
  · simp only [Bool.not_eq_true] at hc
    simp only [hc, Bool.false_eq_true, if_false]
    exact h

/-- `splitWsGo` never returns the empty list once a word is in progress. -/
theorem splitWsGo_ne_nil : ∀ (t cur : List Char), cur ≠ [] → splitWsGo cur t ≠ [] := by
  intro t
  induction t with
  | nil =>
    intro cur h
    have : cur.isEmpty = false := by simpa [List.isEmpty_iff] using h
    simp [splitWsGo, this]
  | cons c rest ih =>
    intro cur h
    have hne : cur.isEmpty = false := by simpa [List.isEmpty_iff] using h
    by_cases hc : pyIsSpace c
    · simp [splitWsGo, hc, hne]
    · simpa [splitWsGo, hc] using ih (c :: cur) (by simp)

/-- `str.split()` of a text whose head is not whitespace is nonempty. -/
theorem splitWs_cons_ne (c : Char) (rest : List Char) (hc : pyIsSpace c = false) :
    splitWs (c :: rest) ≠ [] := by
  have : splitWs (c :: rest) = splitWsGo [c] rest := by
    simp [splitWs, splitWsGo, hc]
  rw [this]
  exact splitWsGo_ne_nil rest [c] (by simp)

/-- An upper-case letter is not whitespace. -/
theorem isUpperC_not_space (c : Char) (h : isUpperC c = true) : pyIsSpace c = false := by
  unfold isUpperC at h
  simp only [Bool.and_eq_true, decide_eq_true_eq] at h
  unfold pyIsSpace
  simp only [Bool.or_eq_false_iff, beq_eq_false_iff_ne, ne_eq]
  omega

/-- The casual lower-casing step never raises on a nonempty text. -/
theorem lowercaseStep_some (t : List Char) (st : UserStyle) (g : List Nat) (h : t ≠ []) :
    ∃ t2 g2, lowercaseStep t st g = some (t2, g2) := by
  unfold lowercaseStep
  by_cases hc : ((randLt 25 g).1 && (st.tone == some (strL ("casual")))) = true
  · simp only [hc, if_true]
    obtain ⟨c, rest, rfl⟩ := List.exists_cons_of_ne_nil h
    by_cases hu : isUpperC c
    · cases hs : splitWs (c :: rest) with
      | nil => exact absurd hs (splitWs_cons_ne c rest (isUpperC_not_space c hu))
      | cons w ws =>
        by_cases hw : pyIsUpperStr w
        · exact ⟨c :: rest, (randLt 25 g).2, by simp [hu, hs, hw]⟩
        · exact ⟨lcC c :: rest, (randLt 25 g).2, by simp [hu, hs, hw]⟩
    · exact ⟨c :: rest, (randLt 25 g).2, by simp [hu]⟩
  · simp only [Bool.not_eq_true] at hc
    exact ⟨t, (randLt 25 g).2, by simp [hc]⟩

/-- Step 5 never raises on a text other than the empty one and `"."`. -/
theorem addImperfections_total (t : List Char) (st : UserStyle) (g : List Nat)
    (h1 : t ≠ []) (h2 : t ≠ strL (".")) :
    ∃ t5 g5, addImperfections t st g = some (t5, g5) := by
  have hd := dropPeriodStep_ne t g h1 h2
  have hdd := doubleSpaceStep_ne (dropPeriodStep t g).1 (dropPeriodStep t g).2 hd
  obtain ⟨t3, g3, h3⟩ := lowercaseStep_some
    (doubleSpaceStep (dropPeriodStep t g).1 (dropPeriodStep t g).2).1 st
    (doubleSpaceStep (dropPeriodStep t g).1 (dropPeriodStep t g).2).2 hdd
  refine ⟨(ellipsisStep t3 g3).1, (ellipsisStep t3 g3).2, ?_⟩
  simp only [addImperfections, h3]

/-- C8 counterexample: the input `"hello"` passes step 1 unchanged (so the
text is nonempty after step 1), yet the pipeline can still raise IndexError:
step 3 collapses a text with no sentence punctuation to the empty string and
step 4 then evaluates `text[0]` (draws `[0, 1]` take the 30% branch and
select the starter `"Honestly,"`). -/
theorem humanize_comment_unsafe_after_step1 :
    removeAiFormality (strL ("hello")) [0, 1] = (strL ("hello"), [0, 1]) ∧
    strL ("hello") ≠ [] ∧
    humanizeComment (strL ("hello")) ⟨[], none, none⟩ [0, 1] = none := by
  decide

/-- C8 amended: string indexing can go out of bounds even for inputs that
are nonempty after step 1 (see the counterexample); the correct guard sits
after step 3: whenever `_vary_sentence_structure` completes with a text that
is neither empty nor the bare `"."`, the remaining steps raise no IndexError
and `humanize_comment` returns a value. -/
theorem humanize_comment_safe_of_step3 (c : List Char) (st : UserStyle) (g : List Nat)
    (t3 : List Char) (g3 : List Nat)
    (hvary : varySentences (applyContractions (removeAiFormality c g).1)
      (removeAiFormality c g).2 = some (t3, g3))
    (hne : t3 ≠ []) (hnd : t3 ≠ strL (".")) :
    ∃ r, humanizeComment c st g = some r := by
  obtain ⟨t4, g4, h4, h4p⟩ := addConvMarkers_total t3 st g3 hne
  have h4ne : t4 ≠ [] := by
    rcases h4p with rfl | hlen
    · exact hne
    · intro hnil; rw [hnil] at hlen; simp at hlen
  have h4nd : t4 ≠ strL (".") := by
    rcases h4p with rfl | hlen
    · exact hnd
    · intro heq; rw [heq] at hlen; simp [strL] at hlen
  obtain ⟨t5, g5, h5⟩ := addImperfections_total t4 st g4 h4ne h4nd
  refine ⟨pyStrip (adjustToUserLength t5 st), ?_⟩
  simp only [humanizeComment, hvary, h4, h5]

/-- Witness for C8 amended at the input `"Hello."`. -/
theorem humanize_comment_safe_of_step3_witness :
    ∃ r, humanizeComment (strL ("Hello.")) ⟨[], none, none⟩ [99, 99, 99, 99, 99, 99] = some r :=
  humanize_comment_safe_of_step3 (strL ("Hello.")) ⟨[], none, none⟩ [99, 99, 99, 99, 99, 99]
    (strL ("Hello.")) [99, 99, 99, 99, 99, 99] (by decide) (by decide) (by decide)

/-!
## Claim C4: formal-transition removal

`_remove_ai_formality` tests each `FORMAL_TRANSITIONS` entry once, in list
order, so a transition nested behind an earlier-removed one survives.  The
positive part: when the remainder after the single matching removal starts
with no entry, the final text (connector substitution included) starts with
no entry — the connector substitution can never manufacture a leading formal
transition, which the decidable `c4PairOK` side conditions witness.
-/

/-- Some position below both lengths where two texts differ. -/
def mismatchWithin (a b : List Char) : Bool :=
  (List.range (min a.length b.length)).any (fun i => !(a.getD i ' ' == b.getD i ' '))

/-- Side conditions on a transition `T` and a connector replacement `r` under
which a first-occurrence substitution by `r` cannot create a leading `T`:
`T` and `r` nonempty with different heads, and past every non-word character
of `T` (other than its final one) the tail of `T` disagrees with `r`. -/
def c4PairOK (T r : List Char) : Bool :=
  !T.isEmpty && !r.isEmpty && !(T.headD ' ' == r.headD ' ') &&
  (List.range T.length).all (fun k =>
    isWordC (T.getD k ' ') || decide (k = T.length - 1) ||
      mismatchWithin (T.drop (k + 1)) r)

/-- A Python-`startswith` prefix determines the pointwise entries. -/
theorem startsWithB_getElem : ∀ (t p : List Char), startsWithB t p = true →
    ∀ k, k < p.length → t[k]? = p[k]? := by
  intro t p
  induction p generalizing t with
  | nil => intro _ k hk; simp at hk
  | cons a ps ih =>
    intro h k hk
    cases t with
    | nil => simp [startsWithB] at h
    | cons b ts =>
      simp only [startsWithB, Bool.and_eq_true, beq_iff_eq] at h
      cases k with
      | zero => simp [h.1]
      | succ j =>
        have := ih ts h.2 j (by simpa using hk)
        simpa using this

/-- Pointwise agreement on all pattern positions gives a prefix. -/
theorem startsWithB_of_getElem : ∀ (t p : List Char),
    (∀ k, k < p.length → t[k]? = p[k]?) → startsWithB t p = true := by
  intro t p
  induction p generalizing t with
  | nil => intro _; cases t <;> simp [startsWithB]
  | cons a ps ih =>
    intro h
    cases t with
    | nil =>
      have := h 0 (by simp)
      simp at this
    | cons b ts =>
      have h0 := h 0 (by simp)
      simp at h0
      have hrest : ∀ k, k < ps.length → ts[k]? = ps[k]? := by
        intro k hk
        have := h (k + 1) (by simpa using Nat.succ_lt_succ hk)
        simpa using this
      simp [startsWithB, h0, ih ts hrest]

/-- A case-insensitive pattern match needs at least the pattern's length. -/
theorem ciPref_le_length : ∀ (q s : List Char), ciPref q s = true → q.length ≤ s.length := by
  intro q
  induction q with
  | nil => intro s _; simp
  | cons a ps ih =>
    intro s h
    cases s with
    | nil => simp [ciPref] at h
    | cons b ts =>
      simp only [ciPref, Bool.and_eq_true] at h
      have := ih ts h.2
      simpa using Nat.succ_le_succ this

/-- Facts carried by a word-boundary match: it fits inside the text, and a
positive offset has a non-word character just before it. -/
theorem matchAtB_bounds (q : List Char) (pw : Bool) (t : List Char) (m : Nat)
    (hq : q ≠ []) (h : matchAtB q pw t m = true) :
    m + q.length ≤ t.length ∧
    (0 < m → ∃ c, t[m - 1]? = some c ∧ isWordC c = false) := by
  unfold matchAtB at h
  simp only [Bool.and_eq_true] at h
  obtain ⟨⟨hleft, hpref⟩, _⟩ := h
  constructor
  · have hlen := ciPref_le_length q (t.drop m) hpref
    simp only [List.length_drop] at hlen
    rcases Nat.le_total m t.length with hm | hm
    · omega
    · exfalso
      have hq0 : q.length = 0 := by omega
      exact hq (List.eq_nil_of_length_eq_zero hq0)
  · intro hmpos
    have hne : ¬(m = 0) := by omega
    simp only [hne, if_false] at hleft
    cases hgc : t[m - 1]? with
    | none => rw [hgc] at hleft; exact absurd hleft (by simp)
    | some c =>
      rw [hgc] at hleft
      exact ⟨c, rfl, by simpa using hleft⟩

/-- A successful scan returns a genuine match. -/
theorem findFromB_some : ∀ (fuel j : Nat) (q : List Char) (pw : Bool) (t : List Char) (m : Nat),
    findFromB q pw t j fuel = some m → matchAtB q pw t m = true := by
  intro fuel
  induction fuel with
  | zero => intro j q pw t m h; simp [findFromB] at h
  | succ f ih =>
    intro j q pw t m h
    unfold findFromB at h
    by_cases hm : matchAtB q pw t j
    · simp [hm] at h; rw [← h]; exact hm
    · simp [hm] at h; exact ih (j + 1) q pw t m h

/-- A witnessed mismatch below both lengths. -/
theorem mismatchWithin_spec (a b : List Char) (h : mismatchWithin a b = true) :
    ∃ i, i < a.length ∧ i < b.length ∧ a[i]? ≠ b[i]? := by
  unfold mismatchWithin at h
  simp only [List.any_eq_true, List.mem_range] at h
  obtain ⟨i, hi, hne⟩ := h
  have hia : i < a.length := by omega
  have hib : i < b.length := by omega
  refine ⟨i, hia, hib, ?_⟩
  simp only [Bool.not_eq_eq_eq_not, Bool.not_true, beq_eq_false_iff_ne, ne_eq] at hne
  rw [List.getD_eq_getElem?_getD, List.getD_eq_getElem?_getD] at hne
  rw [List.getElem?_eq_getElem hia, List.getElem?_eq_getElem hib] at hne ⊢
  simp only [Option.getD_some] at hne
  simp [hne]

/-- A list with `!isEmpty` is not nil. -/
theorem not_isEmpty_ne (l : List Char) (h : (!l.isEmpty) = true) : l ≠ [] := by
  cases l with
  | nil => simp at h
  | cons a as => simp

/-- `!(a == b)` gives inequality of characters. -/
theorem not_beq_ne (a b : Char) (h : (!(a == b)) = true) : a ≠ b := by
  simpa using h

/-- Reading the untouched prefix region of a splice. -/
theorem splice_get_low (t r D : List Char) (m k : Nat) (hmt : m ≤ t.length) (hk : k < m) :
    (t.take m ++ r ++ D)[k]? = t[k]? := by
  rw [List.append_assoc, List.getElem?_append_left (by rw [List.length_take]; omega)]
  rw [List.getElem?_take]
  simp [hk]

/-- Reading the replacement region of a splice. -/
theorem splice_get_mid (t r D : List Char) (m i : Nat) (hmt : m ≤ t.length) (hi : i < r.length) :
    (t.take m ++ r ++ D)[m + i]? = r[i]? := by
  rw [List.append_assoc, List.getElem?_append_right (by rw [List.length_take]; omega)]
  have h2 : m + i - (t.take m).length = i := by rw [List.length_take]; omega
  rw [h2, List.getElem?_append_left hi]

/-- One first-occurrence connector substitution cannot create a leading
formal transition (under the decidable `c4PairOK` side conditions). -/
theorem subFirst_preserves_not_prefix (q r t T : List Char) (hq : q ≠ [])
    (hok : c4PairOK T r = true) (hT : startsWithB t T = false) :
    startsWithB (subFirstWordCI q r t) T = false := by
  unfold subFirstWordCI
  cases hf : findMatchB q false t with
  | none => exact hT
  | some m =>
    simp only [c4PairOK, Bool.and_eq_true] at hok
    obtain ⟨⟨⟨hTne, hrne⟩, hheads⟩, hall⟩ := hok
    have hTne' : T ≠ [] := not_isEmpty_ne T hTne
    have hrne' : r ≠ [] := not_isEmpty_ne r hrne
    have hall' : ∀ k, k < T.length →
        (isWordC (T.getD k ' ') || decide (k = T.length - 1) ||
          mismatchWithin (T.drop (k + 1)) r) = true := by
      intro k hk
      exact List.all_eq_true.mp hall k (List.mem_range.mpr hk)
    by_contra hcon
    simp only [Bool.not_eq_false] at hcon
    have hmatch := findFromB_some _ _ q false t m hf
    obtain ⟨hbound, hleft⟩ := matchAtB_bounds q false t m hq hmatch
    have hql : 1 ≤ q.length := by
      cases q with
      | nil => exact absurd rfl hq
      | cons a as => simp
    have hmt : m ≤ t.length := by omega
    have hpoint := startsWithB_getElem _ T hcon
    rcases Nat.lt_or_ge m T.length with hmT | hmT
    · rcases Nat.eq_zero_or_pos m with hm0 | hmpos
      · subst hm0
        have h0 := hpoint 0 (by omega)
        have hrpos : 0 < r.length := by
          cases hrc : r with
          | nil => exact absurd hrc hrne'
          | cons b bs => simp
        have hr0 := splice_get_mid t r (t.drop (0 + q.length)) 0 0 (by omega) hrpos
        simp only [Nat.add_zero, Nat.zero_add] at hr0 h0
        rw [hr0] at h0
        apply not_beq_ne _ _ hheads
        cases hTc : T with
        | nil => exact absurd hTc hTne'
        | cons a as =>
          cases hrc : r with
          | nil => exact absurd hrc hrne'
          | cons b bs =>
            rw [hTc, hrc] at h0
            simp only [List.getElem?_cons_zero, Option.some.injEq] at h0
            simp [h0]
      · obtain ⟨c, hgc, hcw⟩ := hleft hmpos
        have hTm1 := hpoint (m - 1) (by omega)
        have hlow := splice_get_low t r (t.drop (m + q.length)) m (m - 1) hmt (by omega)
        rw [hlow] at hTm1
        have hTc : T[m - 1]? = some c := by rw [← hTm1]; exact hgc
        have hTgd : T.getD (m - 1) ' ' = c := by
          rw [List.getD_eq_getElem?_getD, hTc]; rfl
        have hk := hall' (m - 1) (by omega)
        rw [hTgd] at hk
        have hdec : decide (m - 1 = T.length - 1) = false := by
          have : ¬ (m - 1 = T.length - 1) := by omega
          simp [this]
        rw [hcw, hdec] at hk
        simp only [Bool.false_or] at hk
        have hmm : mismatchWithin (T.drop m) r = true := by
          have hm1 : m - 1 + 1 = m := by omega
          rwa [hm1] at hk
        obtain ⟨i, hia, hib, hne⟩ := mismatchWithin_spec _ _ hmm
        rw [List.getElem?_drop] at hne
        have hiT : m + i < T.length := by
          simp only [List.length_drop] at hia
          omega
        have hTi := hpoint (m + i) hiT
        have hmid := splice_get_mid t r (t.drop (m + q.length)) m i hmt hib
        rw [hmid] at hTi
        exact hne hTi.symm
    · have hpre : startsWithB t T = true := by
        apply startsWithB_of_getElem
        intro k hk
        have hp := hpoint k hk
        have hlow := splice_get_low t r (t.drop (m + q.length)) m k hmt (by omega)
        rw [hlow] at hp
        exact hp
      rw [hT] at hpre
      cases hpre

/-- `random.choice` picks a member of a nonempty list. -/
theorem pyChoice_mem (l : List (List Char)) (g : List Nat) (hl : l ≠ []) :
    (pyChoice l g).1 ∈ l := by
  unfold pyChoice
  have hlen : 0 < l.length := List.length_pos.mpr hl
  have hmod : (drawNat g).1 % l.length < l.length := Nat.mod_lt _ hlen
  simp only []
  rw [List.getD_eq_getElem l [] hmod]
  exact List.getElem_mem hmod

/-- The whole connector pass preserves "does not start with `T`", given the
pairwise side conditions. -/
theorem replaceConnectors_preserves :
    ∀ (conns : List (List Char × List (List Char))) (t : List Char) (g : List Nat)
      (T : List Char),
    (∀ pr ∈ conns, ∀ r ∈ pr.2, c4PairOK T r = true) →
    (∀ pr ∈ conns, pr.1 ≠ [] ∧ pr.2 ≠ []) →
    startsWithB t T = false →
    startsWithB (replaceConnectors conns t g).1 T = false := by
  intro conns
  induction conns with
  | nil => intro t g T _ _ h; exact h
  | cons pr rest ih =>
    intro t g T hok hne h
    unfold replaceConnectors
    cases hf : findMatchB pr.1 false t with
    | none =>
      exact ih t g T (fun p hp => hok p (List.mem_cons_of_mem _ hp))
        (fun p hp => hne p (List.mem_cons_of_mem _ hp)) h
    | some m =>
      simp only []
      apply ih _ _ T (fun p hp => hok p (List.mem_cons_of_mem _ hp))
        (fun p hp => hne p (List.mem_cons_of_mem _ hp))
      apply subFirst_preserves_not_prefix pr.1 _ t T
        (hne pr (List.mem_cons_self pr rest)).1
        (hok pr (List.mem_cons_self pr rest) _
          (pyChoice_mem pr.2 g (hne pr (List.mem_cons_self pr rest)).2))
        h

/-- A transition loop over entries none of which currently match is the
identity. -/
theorem removeTransitions_id : ∀ (es : List (List Char)) (t : List Char),
    (∀ T ∈ es, startsWithB t T = false) → removeTransitions es t = t := by
  intro es
  induction es with
  | nil => intro t _; rfl
  | cons a rest ih =>
    intro t h
    unfold removeTransitions
    rw [h a (List.mem_cons_self a rest)]
    simp only [Bool.false_eq_true, if_false]
    exact ih t (fun T hT => h T (List.mem_cons_of_mem a hT))

/-- When exactly one entry matches and its remainder matches nothing, the
transition loop removes just that entry. -/
theorem removeTransitions_of_unique :
    ∀ (es : List (List Char)) (t : List Char) (e : List Char),
    e ∈ es → startsWithB t e = true →
    (∀ T ∈ es, T ≠ e → startsWithB t T = false) →
    (∀ T ∈ es, startsWithB (pyStrip (t.drop e.length)) T = false) →
    removeTransitions es t = pyStrip (t.drop e.length) := by
  intro es
  induction es with
  | nil => intro t e he; cases he
  | cons a rest ih =>
    intro t e he hpre huniq hrem
    by_cases ha : startsWithB t a = true
    · have hae : a = e := by
        by_contra hne
        rw [huniq a (List.mem_cons_self a rest) hne] at ha
        cases ha
      subst hae
      unfold removeTransitions
      rw [hpre]
      simp only [if_true]
      exact removeTransitions_id rest _ (fun T hT => hrem T (List.mem_cons_of_mem a hT))
    · have hmem : e ∈ rest := by
        rcases List.mem_cons.mp he with rfl | hmem
        · exact absurd hpre ha
        · exact hmem
      unfold removeTransitions
      simp only [Bool.not_eq_true] at ha
      rw [ha]
      simp only [Bool.false_eq_true, if_false]
      exact ih t e hmem hpre (fun T hT hTe => huniq T (List.mem_cons_of_mem a hT) hTe)
        (fun T hT => hrem T (List.mem_cons_of_mem a hT))

/-- Two prefixes of the same text are comparable: the shorter one is a
prefix of the longer one. -/
theorem prefix_trans_take (t a b : List Char) (ha : startsWithB t a = true)
    (hb : startsWithB t b = true) (hab : a.length ≤ b.length) :
    startsWithB b a = true := by
  apply startsWithB_of_getElem
  intro k hk
  have h1 := startsWithB_getElem t a ha k hk
  have h2 := startsWithB_getElem t b hb k (by omega)
  rw [← h2]
  exact h1

/-- No formal transition is a prefix of a different one. -/
theorem transitions_not_prefix :
    ∀ a ∈ FORMAL_TRANSITIONS, ∀ b ∈ FORMAL_TRANSITIONS,
    a = b ∨ startsWithB a b = false := by decide

/-- Every connector key and option list is nonempty. -/
theorem connectors_ne : ∀ pr ∈ CASUAL_CONNECTORS, pr.1 ≠ [] ∧ pr.2 ≠ [] := by decide

set_option maxHeartbeats 2000000 in
/-- Every (transition, connector replacement) pair satisfies the
no-creation side conditions. -/
theorem c4_pairs_ok : ∀ T ∈ FORMAL_TRANSITIONS, ∀ pr ∈ CASUAL_CONNECTORS,
    ∀ r ∈ pr.2, c4PairOK T r = true := by decide

/-- C4 counterexample: each entry of `FORMAL_TRANSITIONS` is tested once in
list order, so the nested transition in `"Moreover, In conclusion, hi"`
survives: the output still begins with the entry `"In conclusion,"`. -/
theorem remove_ai_formality_counterexample :
    startsWithB (strL ("Moreover, In conclusion, hi")) (strL ("Moreover,")) = true ∧
    (strL ("Moreover,")) ∈ FORMAL_TRANSITIONS ∧
    removeAiFormality (strL ("Moreover, In conclusion, hi")) [0] =
      (strL ("In conclusion, hi"), [0]) ∧
    startsWithB (strL ("In conclusion, hi")) (strL ("In conclusion,")) = true ∧
    (strL ("In conclusion,")) ∈ FORMAL_TRANSITIONS := by decide

/-- C4 amended: for an input that begins with an entry `e` of
`FORMAL_TRANSITIONS`, if the stripped remainder after removing `e` does not
itself begin with any entry, then the text returned by
`_remove_ai_formality` does not begin with any entry (in general a nested
transition survives; see the counterexample). -/
theorem remove_ai_formality_spec (t : List Char) (g : List Nat) (e : List Char)
    (he : e ∈ FORMAL_TRANSITIONS) (hpre : startsWithB t e = true)
    (hrem : ∀ T ∈ FORMAL_TRANSITIONS, startsWithB (pyStrip (t.drop e.length)) T = false) :
    ∀ T ∈ FORMAL_TRANSITIONS, startsWithB (removeAiFormality t g).1 T = false := by
  intro T hT
  have huniq : ∀ T2 ∈ FORMAL_TRANSITIONS, T2 ≠ e → startsWithB t T2 = false := by
    intro T2 hT2 hne
    by_contra hcon
    simp only [Bool.not_eq_false] at hcon
    rcases Nat.le_total T2.length e.length with hle | hle
    · have hp := prefix_trans_take t T2 e hcon hpre hle
      rcases transitions_not_prefix e he T2 hT2 with heq | hfalse
      · exact hne heq.symm
      · rw [hfalse] at hp; cases hp
    · have hp := prefix_trans_take t e T2 hpre hcon hle
      rcases transitions_not_prefix T2 hT2 e he with heq | hfalse
      · exact hne heq
      · rw [hfalse] at hp; cases hp
  have hloop := removeTransitions_of_unique FORMAL_TRANSITIONS t e he hpre huniq hrem
  unfold removeAiFormality
  rw [hloop]
  exact replaceConnectors_preserves CASUAL_CONNECTORS _ g T
    (fun pr hpr r hr => c4_pairs_ok T hT pr hpr r hr) connectors_ne (hrem T hT)

/-- Witness for C4 amended at `"Moreover, hello there."`. -/
theorem remove_ai_formality_spec_witness :
    startsWithB (removeAiFormality (strL ("Moreover, hello there.")) [0]).1
      (strL ("In conclusion,")) = false :=
  remove_ai_formality_spec (strL ("Moreover, hello there.")) [0] (strL ("Moreover,"))
    (by decide) (by decide) (by decide) (strL ("In conclusion,")) (by decide)

/-!
## Claims C5 and C9: the contraction pass leaves no expanded form

The code substitutes 38 `\b…\b` IGNORECASE patterns in sequence.  The key
facts: each global substitution removes every occurrence of its own pattern,
and no substitution can create an occurrence of any table pattern, because
the replacement contractions never line up with any expanded form across a
splice (the decidable `noCreateOK` side conditions).
-/

/-- Case-insensitively equal characters have the same word-character status. -/
theorem ciEqC_word (a b : Char) (h : ciEqC a b = true) : isWordC a = isWordC b := by
  unfold ciEqC at h
  simp only [beq_iff_eq] at h
  unfold lcN at h
  apply Bool.eq_iff_iff.mpr
  unfold isWordC
  simp only [Bool.or_eq_true, Bool.and_eq_true, decide_eq_true_eq, beq_iff_eq]
  split at h <;> split at h <;> omega

/-- Pointwise reading of a successful case-insensitive pattern match. -/
theorem ciPref_getElem : ∀ (q s : List Char), ciPref q s = true →
    ∀ k, k < q.length → ∃ cq cs, q[k]? = some cq ∧ s[k]? = some cs ∧ ciEqC cq cs = true := by
  intro q
  induction q with
  | nil => intro s _ k hk; simp at hk
  | cons a ps ih =>
    intro s h k hk
    cases s with
    | nil => simp [ciPref] at h
    | cons b ts =>
      simp only [ciPref, Bool.and_eq_true] at h
      cases k with
      | zero => exact ⟨a, b, by simp, by simp, h.1⟩
      | succ j =>
        obtain ⟨cq, cs, h1, h2, h3⟩ := ih ts h.2 j (by simpa using hk)
        exact ⟨cq, cs, by simpa using h1, by simpa using h2, h3⟩

/-- Pointwise case-insensitive agreement rebuilds a pattern match. -/
theorem ciPref_of_getElem : ∀ (q s : List Char),
    (∀ k, k < q.length → ∃ cq cs, q[k]? = some cq ∧ s[k]? = some cs ∧ ciEqC cq cs = true) →
    ciPref q s = true := by
  intro q
  induction q with
  | nil => intro s _; simp [ciPref]
  | cons a ps ih =>
    intro s h
    obtain ⟨cq, cs, h1, h2, h3⟩ := h 0 (by simp)
    simp only [List.getElem?_cons_zero, Option.some.injEq] at h1
    cases s with
    | nil => simp at h2
    | cons b ts =>
      simp only [List.getElem?_cons_zero, Option.some.injEq] at h2
      subst h1 h2
      simp only [ciPref, Bool.and_eq_true]
      refine ⟨h3, ih ts ?_⟩
      intro k hk
      obtain ⟨cq2, cs2, g1, g2, g3⟩ := h (k + 1) (by simpa using Nat.succ_lt_succ hk)
      exact ⟨cq2, cs2, by simpa using g1, by simpa using g2, g3⟩

/-- An exhausted scan means no match in the scanned range. -/
theorem findFromB_none : ∀ (fuel j : Nat) (q : List Char) (pw : Bool) (t : List Char),
    findFromB q pw t j fuel = none → ∀ i, j ≤ i → i < j + fuel → matchAtB q pw t i = false := by
  intro fuel
  induction fuel with
  | zero => intro j q pw t _ i h1 h2; omega
  | succ f ih =>
    intro j q pw t h i h1 h2
    unfold findFromB at h
    by_cases hm : matchAtB q pw t j
    · simp [hm] at h
    · simp only [hm, Bool.false_eq_true, if_false] at h
      rcases Nat.eq_or_lt_of_le h1 with rfl | hlt
      · simpa using hm
      · exact ih (j + 1) q pw t h i hlt (by omega)

/-- A match at an offset needs the pattern to fit inside the text. -/
theorem matchAtB_fits (q : List Char) (pw : Bool) (t : List Char) (i : Nat)
    (hq : q ≠ []) (h : matchAtB q pw t i = true) : i + q.length ≤ t.length :=
  (matchAtB_bounds q pw t i hq h).1

/-- No leftmost match means no match at all (for a nonempty pattern). -/
theorem findMatchB_none (q : List Char) (pw : Bool) (t : List Char) (hq : q ≠ [])
    (h : findMatchB q pw t = none) : ∀ i, matchAtB q pw t i = false := by
  intro i
  by_cases hi : i ≤ t.length
  · exact findFromB_none (t.length + 1) 0 q pw t h i (Nat.zero_le i) (by omega)
  · by_contra hcon
    simp only [Bool.not_eq_false] at hcon
    have := matchAtB_fits q pw t i hq hcon
    have hq1 : 1 ≤ q.length := by
      cases q with
      | nil => exact absurd rfl hq
      | cons a as => simp
    omega

/-- The scan returns the leftmost match. -/
theorem findFromB_min : ∀ (fuel j : Nat) (q : List Char) (pw : Bool) (t : List Char) (m : Nat),
    findFromB q pw t j fuel = some m →
    j ≤ m ∧ ∀ i, j ≤ i → i < m → matchAtB q pw t i = false := by
  intro fuel
  induction fuel with
  | zero => intro j q pw t m h; simp [findFromB] at h
  | succ f ih =>
    intro j q pw t m h
    unfold findFromB at h
    by_cases hm : matchAtB q pw t j
    · simp only [hm, if_true, Option.some.injEq] at h
      subst h
      exact ⟨Nat.le_refl j, fun i h1 h2 => by omega⟩
    · simp only [hm, Bool.false_eq_true, if_false] at h
      obtain ⟨hle, hmin⟩ := ih (j + 1) q pw t m h
      refine ⟨by omega, fun i h1 h2 => ?_⟩
      rcases Nat.eq_or_lt_of_le h1 with rfl | hlt
      · simpa using hm
      · exact hmin i hlt h2

/-- A word-boundary match at a positive offset of a dropped text equals the
match at the shifted offset of the whole text, with the left context taken
from the last dropped character. -/
theorem matchAtB_shift (q : List Char) (pw : Bool) (t : List Char) (d l : Nat)
    (hd : 1 ≤ d) (c : Char) (hc : t[d - 1]? = some c) :
    matchAtB q (isWordC c) (t.drop d) l = matchAtB q pw t (d + l) := by
  unfold matchAtB
  have hdl : ¬ (d + l = 0) := by omega
  congr 1
  · congr 1
    · rcases Nat.eq_zero_or_pos l with rfl | hl
      · have h1 : d + 0 - 1 = d - 1 := by omega
        have hd0 : ¬ (d = 0) := by omega
        rw [h1, hc]
        simp [hd0]
      · have hl0 : ¬ (l = 0) := by omega
        simp only [hl0, if_false, hdl, if_false]
        rw [List.getElem?_drop]
        have h2 : d + (l - 1) = d + l - 1 := by omega
        rw [h2]
    · rw [List.drop_drop]
  · rw [List.getElem?_drop]
    have h3 : d + (l + q.length) = d + l + q.length := by omega
    rw [h3]

/-- A word-boundary match at a positive offset inside the right part of an
append ignores the left context and the prefix. -/
theorem matchAtB_append (q : List Char) (pw1 pw2 : Bool) (P C : List Char) (l : Nat)
    (hl : 1 ≤ l) :
    matchAtB q pw2 C l = matchAtB q pw1 (P ++ C) (P.length + l) := by
  unfold matchAtB
  have hdl : ¬ (P.length + l = 0) := by omega
  have hl0 : ¬ (l = 0) := by omega
  congr 1
  · congr 1
    · simp only [hl0, if_false, hdl, if_false]
      have h1 : P.length ≤ P.length + l - 1 := by omega
      rw [List.getElem?_append_right h1]
      have : P.length + l - 1 - P.length = l - 1 := by omega
      rw [this]
    · rw [List.drop_append l]
  · have h1 : P.length ≤ P.length + l + q.length := by omega
    rw [List.getElem?_append_right h1]
    have : P.length + l + q.length - P.length = l + q.length := by omega
    rw [this]

/-- Side conditions under which one global substitution by replacement `r`
can never create an occurrence of pattern `q` across a splice: `r` nonempty
and word-char bounded, `q` not a case-insensitive substring of `r`, and no
alignment of `q` across either junction of a splice fits `r` (the two
`all`-quantified junction checks). -/
def noCreateOK (q r : List Char) : Bool :=
  !r.isEmpty && isWordC (r.headD ' ') && isWordC (r.getLastD ' ') &&
  (List.range (r.length + 1)).all (fun j => !(ciPref q (r.drop j))) &&
  (List.range q.length).all (fun k =>
    isWordC (q.getD k ' ') ||
    (if (q.drop (k + 1)).length < r.length then
      !(ciPref (q.drop (k + 1)) r && !isWordC (r.getD (q.drop (k + 1)).length ' '))
     else if (q.drop (k + 1)).length = r.length then !(ciPref (q.drop (k + 1)) r)
     else !(ciPref ((q.drop (k + 1)).take r.length) r &&
        !isWordC ((q.drop (k + 1)).getD r.length ' ')))) &&
  (List.range q.length).all (fun s =>
    isWordC (q.getD s ' ') ||
    decide (r.length < s) ||
    !(ciPref (q.take s) (r.drop (r.length - s)) &&
      (decide (s = r.length) || !isWordC (r.getD (r.length - s - 1) ' '))))

/-- The head of a nonempty list through `getElem?`. -/
theorem head_getElem (r : List Char) (hr : r ≠ []) : r[0]? = some (r.headD ' ') := by
  cases r with
  | nil => exact absurd rfl hr
  | cons b bs => simp

/-- The last element of a nonempty list through `getElem?`. -/
theorem last_getElem (r : List Char) (hr : r ≠ []) :
    r[r.length - 1]? = some (r.getLastD ' ') := by
  rw [List.getLastD_eq_getLast?, List.getLast?_eq_getElem?]
  cases hg : r[r.length - 1]? with
  | none =>
    exfalso
    have h1 : 1 ≤ r.length := by
      cases r with
      | nil => exact absurd rfl hr
      | cons b bs => simp
    have := List.getElem?_eq_none_iff.mp hg
    omega
  | some x => rfl

/-- Destructing a word-boundary match into its four components. -/
theorem matchAtB_parts (q : List Char) (pw : Bool) (t : List Char) (j : Nat)
    (h : matchAtB q pw t j = true) :
    (j = 0 → pw = false) ∧
    (0 < j → ∃ c, t[j - 1]? = some c ∧ isWordC c = false) ∧
    ciPref q (t.drop j) = true ∧
    (∀ c, t[j + q.length]? = some c → isWordC c = false) := by
  unfold matchAtB at h
  simp only [Bool.and_eq_true] at h
  obtain ⟨⟨hleft, hpref⟩, hright⟩ := h
  refine ⟨?_, ?_, hpref, ?_⟩
  · intro hj; subst hj; simpa using hleft
  · intro hj
    have hne : ¬ (j = 0) := by omega
    simp only [hne, if_false] at hleft
    cases hg : t[j - 1]? with
    | none => rw [hg] at hleft; simp at hleft
    | some c => rw [hg] at hleft; exact ⟨c, rfl, by simpa using hleft⟩
  · intro c hc
    rw [hc] at hright
    simpa using hright

/-- Rebuilding a word-boundary match from its four components. -/
theorem matchAtB_build (q : List Char) (pw : Bool) (t : List Char) (j : Nat)
    (h1 : j = 0 → pw = false)
    (h2 : 0 < j → ∃ c, t[j - 1]? = some c ∧ isWordC c = false)
    (h3 : ciPref q (t.drop j) = true)
    (h4 : ∀ c, t[j + q.length]? = some c → isWordC c = false) :
    matchAtB q pw t j = true := by
  unfold matchAtB
  simp only [Bool.and_eq_true]
  refine ⟨⟨?_, h3⟩, ?_⟩
  · rcases Nat.eq_zero_or_pos j with rfl | hj
    · simp [h1 rfl]
    · have hne : ¬ (j = 0) := by omega
      simp only [hne, if_false]
      obtain ⟨c, hc, hw⟩ := h2 hj
      rw [hc]
      simp [hw]
  · cases hg : t[j + q.length]? with
    | none => simp
    | some c => simp [h4 c hg]

/-- Reading the tail region of a splice. -/
theorem splice_get_high (t r C : List Char) (m i : Nat) (hmt : m ≤ t.length) :
    (t.take m ++ r ++ C)[m + r.length + i]? = C[i]? := by
  rw [List.append_assoc, List.getElem?_append_right (by rw [List.length_take]; omega)]
  rw [List.length_take]
  have h1 : m + r.length + i - min m t.length = r.length + i := by omega
  rw [h1, List.getElem?_append_right (by omega)]
  have h2 : r.length + i - r.length = i := by omega
  rw [h2]

/-- The last slot of the take-prefix of a splice. -/
theorem take_getLast (t : List Char) (d : Nat) (h1 : 1 ≤ d) (h2 : d ≤ t.length) :
    (t.take d).getLast? = t[d - 1]? := by
  rw [List.getLast?_eq_getElem?, List.length_take]
  have hmin : min d t.length = d := by omega
  rw [hmin, List.getElem?_take]
  simp only [if_pos (by omega : d - 1 < d)]

/-- The character under the last position of a match is a word character
when the pattern ends in one. -/
theorem consumed_last_word (p : List Char) (pw : Bool) (t : List Char) (m : Nat)
    (hp : p ≠ []) (hpl : isWordC (p.getLastD ' ') = true)
    (hmatch : matchAtB p pw t m = true) :
    ∃ c, t[m + p.length - 1]? = some c ∧ isWordC c = true := by
  have hpref := (matchAtB_parts p pw t m hmatch).2.2.1
  have hq1 : 1 ≤ p.length := by
    cases p with
    | nil => exact absurd rfl hp
    | cons a as => simp
  obtain ⟨cq, cs, h1, h2, h3⟩ := ciPref_getElem p (t.drop m) hpref (p.length - 1) (by omega)
  rw [List.getElem?_drop] at h2
  have hidx : m + (p.length - 1) = m + p.length - 1 := by omega
  rw [hidx] at h2
  refine ⟨cs, h2, ?_⟩
  have hcq : p.getLastD ' ' = cq := by
    rw [List.getLastD_eq_getLast?, List.getLast?_eq_getElem?, h1]
    rfl
  rw [← ciEqC_word cq cs h3, ← hcq]
  exact hpl

/-- Substituting over the empty text gives the empty text. -/
theorem subWordGo_nil (p r : List Char) (hp : p ≠ []) (fuel : Nat) (pw : Bool) :
    subWordGo p r fuel pw [] = [] := by
  cases fuel with
  | zero => rfl
  | succ f =>
    have hm : matchAtB p pw [] 0 = false := by
      unfold matchAtB
      cases p with
      | nil => exact absurd rfl hp
      | cons a as => simp [ciPref]
    have hfind : findMatchB p pw [] = none := by
      unfold findMatchB findFromB
      rw [hm]
      simp [findFromB]
    unfold subWordGo
    rw [hfind]

/-- With a word character on the left, substitution cannot match at offset 0,
so the output starts with the input's first slot. -/
theorem subWordGo_head (p r : List Char) (hp : p ≠ []) (fuel : Nat) (t : List Char) :
    (subWordGo p r fuel true t)[0]? = t[0]? := by
  cases fuel with
  | zero => rfl
  | succ f =>
    unfold subWordGo
    cases hf : findMatchB p true t with
    | none => rfl
    | some m =>
      simp only []
      have hmatch := findFromB_some _ _ p true t m hf
      have hm1 : 1 ≤ m := by
        by_contra h0
        have hm0 : m = 0 := by omega
        subst hm0
        unfold matchAtB at hmatch
        simp at hmatch
      have hmt : m ≤ t.length := by
        have := matchAtB_fits p true t m hp hmatch
        omega
      exact splice_get_low t r _ m 0 hmt hm1

/-- Central lemma for C5/C9: a global word-boundary substitution of `p` by
`r` leaves no occurrence of `q`, provided either `q = p` (the pattern being
substituted away) or `q` had no occurrence before, and the splice side
conditions `noCreateOK q r` hold.  Induction over the fuel, with a region
analysis of any alleged match against the splice
`take m ++ r ++ (recursive output)`. -/
theorem subWordGo_no_occ (p r : List Char) (hp : p ≠ [])
    (hpl : isWordC (p.getLastD ' ') = true)
    (q : List Char) (hq : q ≠ [])
    (hok : noCreateOK q r = true) :
    ∀ (fuel : Nat) (t : List Char) (pw : Bool),
    t.length ≤ fuel →
    (q = p ∨ ∀ i, matchAtB q pw t i = false) →
    ∀ j, matchAtB q pw (subWordGo p r fuel pw t) j = false := by
  have hq1 : 1 ≤ q.length := by
    cases q with
    | nil => exact absurd rfl hq
    | cons a as => simp
  have hp1 : 1 ≤ p.length := by
    cases p with
    | nil => exact absurd rfl hp
    | cons a as => simp
  simp only [noCreateOK, Bool.and_eq_true] at hok
  obtain ⟨⟨⟨⟨⟨hrne, hrhw⟩, hrlw⟩, hsub⟩, hAB⟩, hBC⟩ := hok
  have hrne' : r ≠ [] := not_isEmpty_ne r hrne
  have hr1 : 1 ≤ r.length := by
    cases r with
    | nil => exact absurd rfl hrne'
    | cons b bs => simp
  intro fuel
  induction fuel with
  | zero =>
    intro t pw hfuel H j
    have ht : t = [] := List.eq_nil_of_length_eq_zero (by omega)
    subst ht
    show matchAtB q pw [] j = false
    unfold matchAtB
    cases q with
    | nil => exact absurd rfl hq
    | cons a as => simp [ciPref]
  | succ f ih =>
    intro t pw hfuel H j
    unfold subWordGo
    cases hf : findMatchB p pw t with
    | none =>
      rcases H with rfl | Hno
      · exact findMatchB_none q pw t hq hf j
      · exact Hno j
    | some m =>
      simp only []
      have hmatch := findFromB_some _ _ p pw t m hf
      obtain ⟨_, hminAll⟩ := findFromB_min _ _ p pw t m hf
      have hbound := matchAtB_fits p pw t m hp hmatch
      have hmt : m ≤ t.length := by omega
      have hd1 : 1 ≤ m + p.length := by omega
      obtain ⟨cl, hcl, hclw⟩ := consumed_last_word p pw t m hp hpl hmatch
      have hlast : (t.take (m + p.length)).getLast? = some cl := by
        rw [take_getLast t (m + p.length) hd1 hbound]
        exact hcl
      simp only [hlast]
      rw [hclw]
      set t2 := t.drop (m + p.length) with ht2
      set C := subWordGo p r f true t2 with hC
      have hChead : C[0]? = t2[0]? := subWordGo_head p r hp f t2
      have hC0 : ∀ c0, C[0]? = some c0 → isWordC c0 = false := by
        intro c0 hc0
        rw [hChead, ht2, List.getElem?_drop, Nat.add_zero] at hc0
        exact (matchAtB_parts p pw t m hmatch).2.2.2 c0 hc0
      have hCno : q = p ∨ ∀ l, matchAtB q true t2 l = false := by
        rcases H with rfl | Hno
        · left; rfl
        · right
          intro l
          rcases Nat.eq_zero_or_pos l with rfl | hl
          · unfold matchAtB; simp
          · have hsh := matchAtB_shift q pw t (m + p.length) l hd1 cl hcl
            rw [hclw] at hsh
            rw [ht2, hsh]
            exact Hno (m + p.length + l)
      have hCno2 : ∀ i, matchAtB q true C i = false := by
        apply ih t2 true ?_ hCno
        rw [ht2]
        simp only [List.length_drop]
        omega
      by_contra hcon
      simp only [Bool.not_eq_false] at hcon
      obtain ⟨hL, hLc, hpref, hR⟩ := matchAtB_parts q pw _ j hcon
      have hpt := ciPref_getElem q _ hpref
      rcases Nat.lt_or_ge j m with hjm | hjm
      · rcases le_or_lt (j + q.length) m with hfit | hcross
        · rcases Nat.eq_or_lt_of_le hfit with heq | hlt
          · have hmid := splice_get_mid t r C m 0 hmt (by omega)
            simp only [Nat.add_zero] at hmid
            rw [head_getElem r hrne'] at hmid
            have hb : (t.take m ++ r ++ C)[j + q.length]? = some (r.headD ' ') := by
              rw [heq]; exact hmid
            have := hR _ hb
            rw [hrhw] at this
            cases this
          · have hinput : matchAtB q pw t j = true := by
              apply matchAtB_build
              · exact hL
              · intro hj0
                obtain ⟨c, hc, hw⟩ := hLc hj0
                rw [splice_get_low t r C m (j - 1) hmt (by omega)] at hc
                exact ⟨c, hc, hw⟩
              · apply ciPref_of_getElem
                intro k hk
                obtain ⟨cq, cs, g1, g2, g3⟩ := hpt k hk
                rw [List.getElem?_drop] at g2
                rw [splice_get_low t r C m (j + k) hmt (by omega)] at g2
                refine ⟨cq, cs, g1, ?_, g3⟩
                rw [List.getElem?_drop]
                exact g2
              · intro c hc
                apply hR c
                rw [splice_get_low t r C m (j + q.length) hmt (by omega)]
                exact hc
            rcases H with rfl | Hno
            · rw [hminAll j (Nat.zero_le j) (by omega)] at hinput; cases hinput
            · rw [Hno j] at hinput; cases hinput
        · obtain ⟨cjun, hcjun, hjw⟩ := (matchAtB_parts p pw t m hmatch).2.1 (by omega)
          have hk0 : m - 1 - j < q.length := by omega
          obtain ⟨cq, cs, g1, g2, g3⟩ := hpt (m - 1 - j) hk0
          rw [List.getElem?_drop] at g2
          have hidx : j + (m - 1 - j) = m - 1 := by omega
          rw [hidx] at g2
          rw [splice_get_low t r C m (m - 1) hmt (by omega)] at g2
          rw [hcjun] at g2
          simp only [Option.some.injEq] at g2
          have hqk : isWordC cq = false := by
            rw [ciEqC_word cq cs g3, ← g2]
            exact hjw
          have hqkd : q.getD (m - 1 - j) ' ' = cq := by
            rw [List.getD_eq_getElem?_getD, g1]; rfl
          have h5k := List.all_eq_true.mp hAB (m - 1 - j) (List.mem_range.mpr hk0)
          rw [hqkd, hqk] at h5k
          simp only [Bool.false_or] at h5k
          have hwlen : (q.drop (m - 1 - j + 1)).length = j + q.length - m := by
            simp only [List.length_drop]
            omega
          have hwchar : ∀ i, i < (q.drop (m - 1 - j + 1)).length →
              ∃ cwi csi, (q.drop (m - 1 - j + 1))[i]? = some cwi ∧
              (t.take m ++ r ++ C)[m + i]? = some csi ∧ ciEqC cwi csi = true := by
            intro i hi
            rw [hwlen] at hi
            obtain ⟨cq2, cs2, d1, d2, d3⟩ := hpt (m - 1 - j + 1 + i) (by omega)
            rw [List.getElem?_drop] at d2
            have hix : j + (m - 1 - j + 1 + i) = m + i := by omega
            rw [hix] at d2
            refine ⟨cq2, cs2, ?_, d2, d3⟩
            rw [List.getElem?_drop]
            exact d1
          rcases Nat.lt_trichotomy (q.drop (m - 1 - j + 1)).length r.length with hwr | hwr | hwr
          · rw [if_pos hwr] at h5k
            have hcp : ciPref (q.drop (m - 1 - j + 1)) r = true := by
              apply ciPref_of_getElem
              intro i hi
              obtain ⟨cwi, csi, e1, e2, e3⟩ := hwchar i hi
              rw [splice_get_mid t r C m i hmt (by omega)] at e2
              exact ⟨cwi, csi, e1, e2, e3⟩
            have hrb : (t.take m ++ r ++ C)[j + q.length]? =
                r[(q.drop (m - 1 - j + 1)).length]? := by
              have hix : j + q.length = m + (q.drop (m - 1 - j + 1)).length := by
                rw [hwlen]; omega
              rw [hix]
              exact splice_get_mid t r C m _ hmt hwr
            cases hgx : r[(q.drop (m - 1 - j + 1)).length]? with
            | none =>
              have := List.getElem?_eq_none_iff.mp hgx
              omega
            | some x =>
              rw [hgx] at hrb
              have hxw := hR x hrb
              have hgd : r.getD (q.drop (m - 1 - j + 1)).length ' ' = x := by
                rw [List.getD_eq_getElem?_getD, hgx]; rfl
              rw [hcp, hgd, hxw] at h5k
              simp at h5k
          · rw [if_neg (by omega), if_pos hwr] at h5k
            have hcp : ciPref (q.drop (m - 1 - j + 1)) r = true := by
              apply ciPref_of_getElem
              intro i hi
              obtain ⟨cwi, csi, e1, e2, e3⟩ := hwchar i hi
              rw [splice_get_mid t r C m i hmt (by omega)] at e2
              exact ⟨cwi, csi, e1, e2, e3⟩
            rw [hcp] at h5k
            simp at h5k
          · rw [if_neg (by omega), if_neg (by omega)] at h5k
            have hcp : ciPref ((q.drop (m - 1 - j + 1)).take r.length) r = true := by
              apply ciPref_of_getElem
              intro i hi
              have hir : i < r.length := by
                rw [List.length_take] at hi; omega
              obtain ⟨cwi, csi, e1, e2, e3⟩ := hwchar i (by omega)
              rw [splice_get_mid t r C m i hmt hir] at e2
              refine ⟨cwi, csi, ?_, e2, e3⟩
              rw [List.getElem?_take]
              simp only [if_pos hir]
              exact e1
            obtain ⟨cw, csC, f1, f2, f3⟩ := hwchar r.length hwr
            have hsg := splice_get_high t r C m 0 hmt
            simp only [Nat.add_zero] at hsg
            rw [hsg] at f2
            have hcsw := hC0 csC f2
            have hww : isWordC cw = false := by
              rw [ciEqC_word cw csC f3]; exact hcsw
            have hgd : (q.drop (m - 1 - j + 1)).getD r.length ' ' = cw := by
              rw [List.getD_eq_getElem?_getD, f1]; rfl
            rw [hcp, hgd, hww] at h5k
            simp at h5k
      · rcases Nat.lt_or_ge j (m + r.length) with hjr | hjr
        · rcases le_or_lt (j + q.length) (m + r.length) with hfit | hcross
          · have hcp : ciPref q (r.drop (j - m)) = true := by
              apply ciPref_of_getElem
              intro k hk
              obtain ⟨cq2, cs2, g1, g2, g3⟩ := hpt k hk
              rw [List.getElem?_drop] at g2
              have hix : j + k = m + (j - m + k) := by omega
              rw [hix] at g2
              rw [splice_get_mid t r C m (j - m + k) hmt (by omega)] at g2
              refine ⟨cq2, cs2, g1, ?_, g3⟩
              rw [List.getElem?_drop]
              exact g2
            have h4j := List.all_eq_true.mp hsub (j - m) (List.mem_range.mpr (by omega))
            rw [hcp] at h4j
            simp at h4j
          · obtain ⟨cqs, csC, f1, f2, f3⟩ := hpt (r.length - (j - m)) (by omega)
            rw [List.getElem?_drop] at f2
            have hix : j + (r.length - (j - m)) = m + r.length := by omega
            rw [hix] at f2
            have hsg := splice_get_high t r C m 0 hmt
            simp only [Nat.add_zero] at hsg
            rw [hsg] at f2
            have hcsw := hC0 csC f2
            have hqs : isWordC cqs = false := by
              rw [ciEqC_word cqs csC f3]; exact hcsw
            have hgd : q.getD (r.length - (j - m)) ' ' = cqs := by
              rw [List.getD_eq_getElem?_getD, f1]; rfl
            have h6s := List.all_eq_true.mp hBC (r.length - (j - m))
              (List.mem_range.mpr (by omega))
            rw [hgd, hqs] at h6s
            have hsrd : decide (r.length < r.length - (j - m)) = false :=
              decide_eq_false (by omega)
            rw [hsrd] at h6s
            simp only [Bool.false_or] at h6s
            have hcp : ciPref (q.take (r.length - (j - m)))
                (r.drop (r.length - (r.length - (j - m)))) = true := by
              have hrr : r.length - (r.length - (j - m)) = j - m := by omega
              rw [hrr]
              apply ciPref_of_getElem
              intro i hi
              have his : i < r.length - (j - m) := by
                rw [List.length_take] at hi; omega
              obtain ⟨cq2, cs2, g1, g2, g3⟩ := hpt i (by omega)
              rw [List.getElem?_drop] at g2
              have hix2 : j + i = m + (j - m + i) := by omega
              rw [hix2] at g2
              rw [splice_get_mid t r C m (j - m + i) hmt (by omega)] at g2
              refine ⟨cq2, cs2, ?_, ?_, g3⟩
              · rw [List.getElem?_take]
                simp only [if_pos his]
                exact g1
              · rw [List.getElem?_drop]
                exact g2
            have hbd : (decide (r.length - (j - m) = r.length) ||
                !isWordC (r.getD (r.length - (r.length - (j - m)) - 1) ' ')) = true := by
              rcases Nat.eq_zero_or_pos (j - m) with hj0 | hjpos
              · have : r.length - (j - m) = r.length := by omega
                rw [this]
                simp
              · obtain ⟨cb, hcb, hbw⟩ := hLc (by omega)
                have hix3 : j - 1 = m + (j - m - 1) := by omega
                rw [hix3] at hcb
                rw [splice_get_mid t r C m (j - m - 1) hmt (by omega)] at hcb
                have hgd2 : r.getD (r.length - (r.length - (j - m)) - 1) ' ' = cb := by
                  have hrr2 : r.length - (r.length - (j - m)) - 1 = j - m - 1 := by omega
                  rw [hrr2, List.getD_eq_getElem?_getD, hcb]; rfl
                rw [hgd2, hbw]
                simp
            rw [hcp, hbd] at h6s
            simp at h6s
        · rcases Nat.eq_or_lt_of_le hjr with heq | hgt
          · obtain ⟨cb, hcb, hbw⟩ := hLc (by omega)
            have hix : j - 1 = m + (r.length - 1) := by omega
            rw [hix] at hcb
            rw [splice_get_mid t r C m (r.length - 1) hmt (by omega)] at hcb
            rw [last_getElem r hrne'] at hcb
            simp only [Option.some.injEq] at hcb
            have hlw : isWordC cb = true := by rw [← hcb]; exact hrlw
            rw [hbw] at hlw
            cases hlw
          · have hj31 : 1 ≤ j - (m + r.length) := by omega
            have hm2 := hCno2 (j - (m + r.length))
            have happ := matchAtB_append q pw true (t.take m ++ r) C (j - (m + r.length)) hj31
            have hPlen : (t.take m ++ r).length = m + r.length := by
              simp only [List.length_append, List.length_take]
              omega
            rw [hPlen] at happ
            have hix : m + r.length + (j - (m + r.length)) = j := by omega
            rw [hix] at happ
            rw [← happ] at hcon
            rw [hm2] at hcon
            cases hcon

set_option maxHeartbeats 8000000 in
/-- Every (pattern, replacement) pair of the contraction table satisfies the
splice side conditions: no substitution can create an occurrence of any
table pattern. -/
theorem tbl_pairs_ok : ∀ pr ∈ contractionTable, ∀ pr2 ∈ contractionTable,
    noCreateOK pr.1 pr2.2 = true := by decide

/-- Every table pattern is nonempty and ends in a word character. -/
theorem tbl_p_ok : ∀ pr ∈ contractionTable,
    pr.1 ≠ [] ∧ isWordC (pr.1.getLastD ' ') = true := by decide

/-- `subWordGo_no_occ` at the top level (`re.sub` over a whole string). -/
theorem subWordAll_no_occ (p r q : List Char) (hp : p ≠ [])
    (hpl : isWordC (p.getLastD ' ') = true) (hq : q ≠ []) (hok : noCreateOK q r = true)
    (t : List Char)
    (H : q = p ∨ ∀ i, matchAtB q false t i = false) :
    ∀ j, matchAtB q false (subWordAll p r t) j = false :=
  subWordGo_no_occ p r hp hpl q hq hok t.length t false (Nat.le_refl _) H

/-- Folding the substitutions over any suffix of the table keeps every
already-cleaned pattern clean and cleans every pattern it processes. -/
theorem fold_no_occ :
    ∀ (entries : List (List Char × List Char)) (done : List (List Char)) (t : List Char),
    (∀ pr ∈ entries, pr ∈ contractionTable) →
    (∀ q ∈ done, ∃ prq ∈ contractionTable, prq.1 = q) →
    (∀ q ∈ done, ∀ i, matchAtB q false t i = false) →
    ∀ q2, (q2 ∈ done ∨ ∃ pr ∈ entries, pr.1 = q2) →
    ∀ j, matchAtB q2 false
      (List.foldl (fun acc pr => subWordAll pr.1 pr.2 acc) t entries) j = false := by
  intro entries
  induction entries with
  | nil =>
    intro done t _ _ hclean q2 hq2 j
    rcases hq2 with hd | ⟨pr, hpr, _⟩
    · exact hclean q2 hd j
    · cases hpr
  | cons pr rest ih =>
    intro done t hsub hdone hclean q2 hq2 j
    simp only [List.foldl_cons]
    have hprtbl : pr ∈ contractionTable := hsub pr (List.mem_cons_self pr rest)
    obtain ⟨hpne, hplast⟩ := tbl_p_ok pr hprtbl
    have hclean2 : ∀ q ∈ pr.1 :: done, ∀ i,
        matchAtB q false (subWordAll pr.1 pr.2 t) i = false := by
      intro q hqmem i
      rcases List.mem_cons.mp hqmem with rfl | hqd
      · exact subWordAll_no_occ pr.1 pr.2 pr.1 hpne hplast hpne
          (tbl_pairs_ok pr hprtbl pr hprtbl) t (Or.inl rfl) i
      · obtain ⟨prq, hprq, hprq1⟩ := hdone q hqd
        have hqne : q ≠ [] := by rw [← hprq1]; exact (tbl_p_ok prq hprq).1
        have hokq : noCreateOK q pr.2 = true := by
          rw [← hprq1]
          exact tbl_pairs_ok prq hprq pr hprtbl
        exact subWordAll_no_occ pr.1 pr.2 q hpne hplast hqne hokq t
          (Or.inr (hclean q hqd)) i
    refine ih (pr.1 :: done) (subWordAll pr.1 pr.2 t)
      (fun p2 hp2 => hsub p2 (List.mem_cons_of_mem pr hp2)) ?_ hclean2 q2 ?_ j
    · intro q hqd
      rcases List.mem_cons.mp hqd with rfl | hqd2
      · exact ⟨pr, hprtbl, rfl⟩
      · exact hdone q hqd2
    · rcases hq2 with hd | ⟨pr2, hpr2, hpr2e⟩
      · exact Or.inl (List.mem_cons_of_mem _ hd)
      · rcases List.mem_cons.mp hpr2 with rfl | hrest
        · exact Or.inl (by rw [← hpr2e]; exact List.mem_cons_self _ _)
        · exact Or.inr ⟨pr2, hrest, hpr2e⟩

/-- The shared core of claims C5 and C9: after `_apply_contractions`, no
whole-word IGNORECASE occurrence of any table pattern remains. -/
theorem apply_contractions_no_occurrence (t : List Char) :
    ∀ pr ∈ contractionTable, ∀ j, matchAtB pr.1 false (applyContractions t) j = false := by
  intro pr hpr j
  exact fold_no_occ contractionTable [] t (fun p hp => hp)
    (fun q hq => absurd hq (List.not_mem_nil q))
    (fun q hq => absurd hq (List.not_mem_nil q)) pr.1 (Or.inr ⟨pr, hpr, rfl⟩) j

/-- C5: `_apply_contractions` replaces the whole-word case-insensitive
occurrences of every expanded form of its table, and no substitution can
re-create one, so the output contains no whole-word occurrence (`\b…\b`,
IGNORECASE) of any expanded form in the table. -/
theorem apply_contractions_removes_all (t pat repl : List Char)
    (h : (pat, repl) ∈ contractionTable) :
    ¬ ∃ j, matchAtB pat false (applyContractions t) j = true := by
  rintro ⟨j, hj⟩
  rw [apply_contractions_no_occurrence t (pat, repl) h j] at hj
  cases hj

/-- Witness for C5 at a concrete sentence containing `"do not"`. -/
theorem apply_contractions_removes_all_witness :
    ¬ ∃ j, matchAtB (strL ("do not")) false
      (applyContractions (strL ("We do not agree."))) j = true :=
  apply_contractions_removes_all (strL ("We do not agree."))
    (strL ("do not")) (strL ("don't")) (by decide)

/-- A pattern with no matches makes the scan return nothing. -/
theorem findFromB_none_of_all (q : List Char) (pw : Bool) (t : List Char)
    (h : ∀ i, matchAtB q pw t i = false) :
    ∀ (fuel j : Nat), findFromB q pw t j fuel = none := by
  intro fuel
  induction fuel with
  | zero => intro j; rfl
  | succ f ih =>
    intro j
    unfold findFromB
    rw [h j]
    simp only [Bool.false_eq_true, if_false]
    exact ih (j + 1)

/-- A substitution whose pattern does not occur is the identity. -/
theorem subWordAll_id (p r t : List Char) (h : ∀ i, matchAtB p false t i = false) :
    subWordAll p r t = t := by
  unfold subWordAll
  cases ht : t.length with
  | zero => rfl
  | succ n =>
    unfold subWordGo
    have hnone : findMatchB p false t = none := findFromB_none_of_all p false t h _ _
    rw [hnone]

/-- Folding substitutions none of whose patterns occur is the identity. -/
theorem fold_id : ∀ (entries : List (List Char × List Char)) (u : List Char),
    (∀ pr ∈ entries, ∀ i, matchAtB pr.1 false u i = false) →
    List.foldl (fun acc pr => subWordAll pr.1 pr.2 acc) u entries = u := by
  intro entries
  induction entries with
  | nil => intro u _; rfl
  | cons pr rest ih =>
    intro u h
    simp only [List.foldl_cons]
    rw [subWordAll_id pr.1 pr.2 u (h pr (List.mem_cons_self pr rest))]
    exact ih u (fun p2 hp2 => h p2 (List.mem_cons_of_mem pr hp2))

/-- C9: `_apply_contractions` is idempotent: its output contains no
occurrence of any table pattern, so a second pass substitutes nothing. -/
theorem apply_contractions_idempotent (t : List Char) :
    applyContractions (applyContractions t) = applyContractions t := by
  have h := fold_id contractionTable (applyContractions t)
    (fun pr hpr i => apply_contractions_no_occurrence t pr hpr i)
  simpa [applyContractions] using h
